import Mathlib

/-!
Verification development for the prime-factor FFT backend
(`src/fourier/src/autosort/prime_factor.rs`).

The planner (`num_factors`, `extend_twiddles`, `Stages::new`), the stage
driver (`apply_stages_f32` / `apply_stages_f64`, generated by
`make_stage_fns!`), and the engine (`PrimeFactor32/64`, `create_f32/f64`)
are embedded from the source.  The code is generic over the scalar
precision `T: FftFloat`; we embed it generically over an environment of
scalar operations.  The radix butterfly kernels (`crate::stage!`,
`crate::butterflyN`, `crate::avx_optimization!`), the vector width
(`width!`) and the external `crate::twiddle::compute_twiddle` are not part
of the shown source, so theorems quantify over arbitrary kernel functions
and, where numeric meaning is needed, the missing pieces are modelled from
the spec (see the doc comments marked accordingly).
-/

/-- Environment of scalar operations used by the embedded code.  The Rust
source is generic over `T: FftFloat` and operates on `Complex<T>`:
`one` models `Complex::one()`, `twiddle` models the external collaborator
`crate::twiddle::compute_twiddle(index, subsize, forward)`, `ofSize` models
the `stages.size as $type` cast, `div` models `x / scale` on complex
samples, and `defaultVal` models `Complex::default()` (zero). -/
structure FftEnv (T : Type) where
  one : T
  twiddle : ℕ → ℕ → Bool → T
  ofSize : ℕ → T
  div : T → T → T
  defaultVal : T

/-- Fuel-driven core of `num_factors`.  The Rust loop
`while value % factor == 0 { value /= factor; count += 1; }` strictly
decreases `value` on every pass whenever `factor >= 2` and `value > 0`
(and does not terminate at `value = 0`, an input no caller of the source
ever produces: transform lengths are positive).  We therefore run the loop
on fuel, guarded so that each recursive call strictly shrinks `value`;
fuel `value` is enough for every positive input with `factor >= 2`. -/
def numFactorsGo (factor : ℕ) : ℕ → ℕ → ℕ → ℕ × ℕ
  | 0, count, value => (count, value)
  | fuel + 1, count, value =>
    if 2 ≤ factor ∧ 0 < value ∧ value % factor = 0 then
      numFactorsGo factor fuel (count + 1) (value / factor)
    else (count, value)

/-- Embeds Rust `fn num_factors(factor: usize, mut value: usize) -> (usize, usize)`:
returns `(count, value)` where `count` is the number of times `factor` was
divided out of `value`. -/
def num_factors (factor value : ℕ) : ℕ × ℕ :=
  numFactorsGo factor value 0 value

/-- Inner loops of `extend_twiddles`: for group indices `i, i+1, ..., i+m-1`
emit the group `one :: [twiddle (i*j) subsize dir | j in 1..radix]`, exactly
the two `push` loops `for i in 0..m { push(one); for j in 1..radix { push(compute_twiddle(i*j, subsize, dir)) } }`
of the source (one direction at a time; the source interleaves the pushes
into the forward and reverse vectors, which commute since they touch
distinct vectors). -/
def twiddleGroupsFrom {T : Type} (env : FftEnv T) (subsize radix : ℕ) (forward : Bool) :
    ℕ → ℕ → List T
  | _, 0 => []
  | i, m + 1 =>
    (env.one :: (List.range' 1 (radix - 1)).map fun j => env.twiddle (i * j) subsize forward)
      ++ twiddleGroupsFrom env subsize radix forward (i + 1) m

/-- Embeds Rust `fn extend_twiddles`: returns the pair of segments appended
to `forward_twiddles` and `reverse_twiddles` for `iterations` successive
divisions of `subsize` by `radix`. -/
def extend_twiddles {T : Type} (env : FftEnv T) : ℕ → ℕ → ℕ → List T × List T
  | _, _, 0 => ([], [])
  | subsize, radix, iterations + 1 =>
    let m := subsize / radix
    let rest := extend_twiddles env (subsize / radix) radix iterations
    (twiddleGroupsFrom env subsize radix true 0 m ++ rest.1,
     twiddleGroupsFrom env subsize radix false 0 m ++ rest.2)

/-- Embeds Rust `struct Stages<T>`: the plan bundling the transform length,
the ordered stage list `(radix, iteration_count)` and the two twiddle
tables. -/
structure Stages (T : Type) where
  size : ℕ
  stages : List (ℕ × ℕ)
  forward_twiddles : List T
  reverse_twiddles : List T

/-- Embeds Rust `Stages::new(size)`: greedily extract factors of 4, then 3,
then 2, pushing a stage and extending both twiddle tables for each factor
with positive count, and fail (return `none`) when the residual is not 1.
The source pushes into growing vectors inside three guarded blocks executed
in order; here the same three guarded contributions appear as appends in
the same order. -/
def Stages.new {T : Type} (env : FftEnv T) (size : ℕ) : Option (Stages T) :=
  let f4 := num_factors 4 size
  let f3 := num_factors 3 f4.2
  let f2 := num_factors 2 f3.2
  let stages : List (ℕ × ℕ) :=
    (if 0 < f4.1 then [(4, f4.1)] else []) ++ (if 0 < f3.1 then [(3, f3.1)] else [])
      ++ (if 0 < f2.1 then [(2, f2.1)] else [])
  let forward_twiddles : List T :=
    (if 0 < f4.1 then (extend_twiddles env size 4 f4.1).1 else [])
      ++ (if 0 < f3.1 then (extend_twiddles env f4.2 3 f3.1).1 else [])
      ++ (if 0 < f2.1 then (extend_twiddles env f3.2 2 f2.1).1 else [])
  let reverse_twiddles : List T :=
    (if 0 < f4.1 then (extend_twiddles env size 4 f4.1).2 else [])
      ++ (if 0 < f3.1 then (extend_twiddles env f4.2 3 f3.1).2 else [])
      ++ (if 0 < f2.1 then (extend_twiddles env f3.2 2 f2.1).2 else [])
  if f2.2 ≠ 1 then none
  else some ⟨size, stages, forward_twiddles, reverse_twiddles⟩

/-- Length of the twiddle segment one stage contributes: each of the
`iterations` passes over a sub-size `s` contributes `s / radix` groups of
`radix` entries, after which the sub-size is divided by the radix. -/
def twLen : ℕ → ℕ → ℕ → ℕ
  | _, _, 0 => 0
  | subsize, radix, iterations + 1 =>
    subsize / radix * radix + twLen (subsize / radix) radix iterations

/-- Total twiddle-table length for a stage list, threading the sub-size
through the stages (each stage of `iterations` passes at radix `r` divides
the sub-size by `r^iterations`). -/
def twLenTotal : List (ℕ × ℕ) → ℕ → ℕ
  | [], _ => 0
  | (radix, iterations) :: rest, size =>
    twLen size radix iterations + twLenTotal rest (size / radix ^ iterations)

/-- Modelled from the spec sentence of claim C7: table length equals the
sum over stages of `(iterations × current_subsize)`, reading
`current_subsize` as the sub-size current when the stage begins. -/
def specClaimedTableLen : List (ℕ × ℕ) → ℕ → ℕ
  | [], _ => 0
  | (radix, iterations) :: rest, size =>
    iterations * size + specClaimedTableLen rest (size / radix ^ iterations)

/-- Pure simulation of the twiddle-cursor arithmetic of one stage of the
driver: starting from `(size, tlen)` (current sub-size and remaining table
length), each iteration checks that the remaining table holds at least
`size` entries and that the radix divides the sub-size (so the advance
`size / radix * radix` consumes exactly `size` entries), then consumes
them and divides the sub-size. -/
def consumeStage (radix : ℕ) : ℕ → ℕ × ℕ → Option (ℕ × ℕ)
  | 0, st => some st
  | iterations + 1, (size, tlen) =>
    if size ≤ tlen ∧ size % radix = 0 then
      consumeStage radix iterations (size / radix, tlen - size)
    else none

/-- Twiddle-cursor simulation across the whole stage list. -/
def consumeStages : List (ℕ × ℕ) → ℕ × ℕ → Option (ℕ × ℕ)
  | [], st => some st
  | (radix, iterations) :: rest, st =>
    match consumeStage radix iterations st with
    | some st2 => consumeStages rest st2
    | none => none

/-- Shape of one radix kernel: the source kernels (generated by
`make_radix_fns!`, bodies in `crate::stage!` / the butterflies, outside the
shown source) receive `(input, output, forward, size, stride, twiddles)`
and overwrite the output block as a function of the rest; we model a kernel
family indexed by its radix as a function returning the new output
buffer. -/
abbrev KernelFn (T : Type) :=
  ℕ → List T → Bool → ℕ → ℕ → List T → List T

/-- Mutable state of the stage-driver loop in `apply_stages`: the two
buffers, the current sub-transform `size`, the current `stride`, the
remaining twiddle slice, and the ping-pong flag `data_in_output`. -/
structure DriverState (T : Type) where
  input : List T
  output : List T
  size : ℕ
  stride : ℕ
  twiddles : List T
  dataInOutput : Bool

/-- Buffer currently holding the data, per the ping-pong flag. -/
def DriverState.dataBuf {T : Type} (s : DriverState T) : List T :=
  if s.dataInOutput then s.output else s.input

/-- One iteration of the driver loop body: pick source/destination by
parity, dispatch on the radix (radices other than 4, 3, 2 hit
`unimplemented!`, modelled as `none`), overwrite the destination with the
kernel result, then `size /= radix`, `stride *= radix`, advance the
twiddle cursor by `size * radix` (with the new `size`) and flip the
flag. -/
def driverStep {T : Type} (kern : KernelFn T) (forward : Bool) (radix : ℕ)
    (s : DriverState T) : Option (DriverState T) :=
  if radix = 4 ∨ radix = 3 ∨ radix = 2 then
    let fromBuf := if s.dataInOutput then s.output else s.input
    let toBuf := kern radix fromBuf forward s.size s.stride s.twiddles
    let size := s.size / radix
    some
      { input := if s.dataInOutput then toBuf else s.input
        output := if s.dataInOutput then s.output else toBuf
        size := size
        stride := s.stride * radix
        twiddles := s.twiddles.drop (size * radix)
        dataInOutput := !s.dataInOutput }
  else none

/-- The wide phase of one stage: the remaining iterations once the narrow
phase is over (the `for _ in iteration..*iterations` loop). -/
def runWide {T : Type} (wideK : KernelFn T) (forward : Bool) (radix : ℕ) :
    ℕ → DriverState T → Option (DriverState T)
  | 0, s => some s
  | n + 1, s =>
    match driverStep wideK forward radix s with
    | some t => runWide wideK forward radix n t
    | none => none

/-- One stage of the driver: narrow-kernel iterations while
`stride < width` (the `while stride < width!{} && iteration < *iterations`
loop), then wide-kernel iterations for the rest.  `w` is the vector width
`width!{}` (platform constant, outside the shown source, so kept as a
parameter). -/
def runStage {T : Type} (narrowK wideK : KernelFn T) (w : ℕ) (forward : Bool) (radix : ℕ) :
    ℕ → DriverState T → Option (DriverState T)
  | 0, s => some s
  | n + 1, s =>
    if s.stride < w then
      match driverStep narrowK forward radix s with
      | some t => runStage narrowK wideK w forward radix n t
      | none => none
    else runWide wideK forward radix (n + 1) s

/-- The driver walk over the stage list (`for (radix, iterations) in &stages.stages`). -/
def runStages {T : Type} (narrowK wideK : KernelFn T) (w : ℕ) (forward : Bool) :
    List (ℕ × ℕ) → DriverState T → Option (DriverState T)
  | [], s => some s
  | (radix, iterations) :: rest, s =>
    match runStage narrowK wideK w forward radix iterations s with
    | some t => runStages narrowK wideK w forward rest t
    | none => none

/-- Instrumented variant of `driverStep` that additionally checks, before
stepping, the safety conditions the kernel and the slice advance rely on:
the remaining twiddle slice holds at least `size` entries (so every kernel
access `twiddles[j * radix + i]` with `j < size / radix`, `i < radix` is in
bounds) and the radix divides `size` (so the advance
`&twiddles[(size / radix) * radix ..]` cuts exactly `size` entries and
stays within the slice). -/
def driverStepChecked {T : Type} (kern : KernelFn T) (forward : Bool) (radix : ℕ)
    (s : DriverState T) : Option (DriverState T) :=
  if s.size ≤ s.twiddles.length ∧ s.size % radix = 0 then
    driverStep kern forward radix s
  else none

/-- Checked variant of `runWide`. -/
def runWideChecked {T : Type} (wideK : KernelFn T) (forward : Bool) (radix : ℕ) :
    ℕ → DriverState T → Option (DriverState T)
  | 0, s => some s
  | n + 1, s =>
    match driverStepChecked wideK forward radix s with
    | some t => runWideChecked wideK forward radix n t
    | none => none

/-- Checked variant of `runStage`. -/
def runStageChecked {T : Type} (narrowK wideK : KernelFn T) (w : ℕ) (forward : Bool)
    (radix : ℕ) : ℕ → DriverState T → Option (DriverState T)
  | 0, s => some s
  | n + 1, s =>
    if s.stride < w then
      match driverStepChecked narrowK forward radix s with
      | some t => runStageChecked narrowK wideK w forward radix n t
      | none => none
    else runWideChecked wideK forward radix (n + 1) s

/-- Checked variant of `runStages`. -/
def runStagesChecked {T : Type} (narrowK wideK : KernelFn T) (w : ℕ) (forward : Bool) :
    List (ℕ × ℕ) → DriverState T → Option (DriverState T)
  | [], s => some s
  | (radix, iterations) :: rest, s =>
    match runStageChecked narrowK wideK w forward radix iterations s with
    | some t => runStagesChecked narrowK wideK w forward rest t
    | none => none

/-- Embeds the stage-application function generated by `make_stage_fns!`
(`apply_stages_f32` / `apply_stages_f64`).  The two `assert_eq!` guards
(`input.len() == output.len()` and `stages.size == input.len()`) are
modelled as a precondition whose violation yields `none` (panic) before
any stage runs.  After the stage walk: a forward transform copies the data
back into `input` when it ended in `output` (`copy_from_slice`, which
itself panics on a length mismatch); an inverse transform divides every
sample by `stages.size` during that copy-back (the `zip` loop, which pairs
samples up to the shorter buffer) or in place.  Returns the final
`(input, output)` buffer pair. -/
def apply_stages {T : Type} (narrowK wideK : KernelFn T) (w : ℕ) (env : FftEnv T)
    (input output : List T) (stages : Stages T) (forward : Bool) :
    Option (List T × List T) :=
  if input.length = output.length ∧ stages.size = input.length then
    match runStages narrowK wideK w forward stages.stages
        ⟨input, output, stages.size, 1,
          if forward then stages.forward_twiddles else stages.reverse_twiddles, false⟩ with
    | none => none
    | some s =>
      if forward then
        if s.dataInOutput then
          if s.input.length = s.output.length then some (s.output, s.output) else none
        else some (s.input, s.output)
      else
        if s.dataInOutput then
          some (List.zipWith (fun x _ => env.div x (env.ofSize stages.size)) s.output s.input
              ++ s.input.drop s.output.length, s.output)
        else some (s.input.map fun x => env.div x (env.ofSize stages.size), s.output)
  else none

/-- A kernel family is length preserving when the buffer it produces has
the length of the buffer it read; in the source this is forced by the type
of `&mut [Complex<T>]` slices, whose length cannot change. -/
def KernelPreservesLength {T : Type} (k : KernelFn T) : Prop :=
  ∀ radix inputBuf forward size stride twiddles,
    (k radix inputBuf forward size stride twiddles).length = inputBuf.length

/-- Embeds Rust `struct PrimeFactor32` / `PrimeFactor64`: a plan, the
scratch buffer held in the `Cell` (represented by its current contents),
and the length. -/
structure PrimeFactor (T : Type) where
  stages : Stages T
  work : List T
  size : ℕ

/-- Embeds `PrimeFactor32::new` / `PrimeFactor64::new`: plan the size,
allocate a zeroed scratch buffer of that length. -/
def PrimeFactor.new {T : Type} (env : FftEnv T) (size : ℕ) : Option (PrimeFactor T) :=
  match Stages.new env size with
  | some stages => some ⟨stages, List.replicate size env.defaultVal, size⟩
  | none => none

/-- Embeds `transform_in_place`: take the scratch buffer out of the cell,
run `apply_stages`, put the (possibly rewritten) scratch buffer back.
Returns the new caller buffer and the engine with its updated cell. -/
def PrimeFactor.transform_in_place {T : Type} (narrowK wideK : KernelFn T) (w : ℕ)
    (env : FftEnv T) (pf : PrimeFactor T) (input : List T) (forward : Bool) :
    Option (List T × PrimeFactor T) :=
  match apply_stages narrowK wideK w env input pf.work pf.stages forward with
  | some (input2, work2) => some (input2, { pf with work := work2 })
  | none => none

/-- Embeds `create_f32` / `create_f64` generically: construction succeeds
exactly when planning does. -/
def create {T : Type} (env : FftEnv T) (size : ℕ) : Option (PrimeFactor T) :=
  match PrimeFactor.new env size with
  | some fft => some fft
  | none => none

/-- Concrete environment over ℕ used to evaluate the structural
definitions on closed inputs (the planner and driver never inspect scalar
values, only move them). -/
def envNat : FftEnv ℕ :=
  ⟨1, fun _ _ _ => 0, fun n => n, fun a b => a / b, 0⟩

/-- Forward-table length the planner actually produces at a given size,
over `envNat`. -/
def c7FwdLenAt (n : ℕ) : Option ℕ :=
  (Stages.new envNat n).map fun st => st.forward_twiddles.length

/-- Table length the spec sentence of claim C7 predicts at a given size,
over `envNat`. -/
def c7ClaimedLenAt (n : ℕ) : Option ℕ :=
  (Stages.new envNat n).map fun st => specClaimedTableLen st.stages st.size

/-- Modelled from the spec: the external collaborator
`root_of_unity(index, modulus, forward) -> complex`
(`crate::twiddle::compute_twiddle`, not part of the shown source),
satisfying `root_of_unity(k, m, true) == conj(root_of_unity(k, m, false))`
and `root_of_unity(0, m, _) == 1`: the primitive `modulus`-th root of
unity raised to `index`, rotating clockwise in the forward direction. -/
noncomputable def compute_twiddle (index modulus : ℕ) (forward : Bool) : ℂ :=
  Complex.exp ((if forward then (-1 : ℂ) else 1) * 2 * (Real.pi : ℂ) * Complex.I * index
    / modulus)

/-- Environment over exact complex scalars with the spec-modelled root of
unity; models both precisions (`f32` and `f64`) idealized to exact
arithmetic. -/
noncomputable def envC : FftEnv ℂ :=
  ⟨1, compute_twiddle, fun n => (n : ℂ), fun a b => a / b, 0⟩

/-- Embeds `create_f32` at exact complex scalars. -/
noncomputable def create_f32 (size : ℕ) : Option (PrimeFactor ℂ) :=
  create envC size

/-- Embeds `create_f64` at exact complex scalars. -/
noncomputable def create_f64 (size : ℕ) : Option (PrimeFactor ℂ) :=
  create envC size

/-- Modelled from the spec: the transform the engine computes.  The radix
kernels (`crate::stage!` and the butterflies) are not part of the shown
source; the spec describes the system as a DFT kernel whose forward
transform is unscaled, so the length-N forward (respectively reverse)
pipeline is the plain DFT with forward (respectively reverse) twiddles. -/
noncomputable def dft (N : ℕ) (forward : Bool) (x : Fin N → ℂ) : Fin N → ℂ :=
  fun k => ∑ j : Fin N, x j * compute_twiddle (j.1 * k.1) N forward

/-- Modelled from the spec: the externally observable transform of
`transform_in_place` — forward applies the unscaled DFT, inverse applies
the reverse-twiddle DFT and divides every sample by N in one final
pass. -/
noncomputable def specTransform (N : ℕ) (x : Fin N → ℂ) (forward : Bool) : Fin N → ℂ :=
  if forward then dft N true x else fun k => dft N false x k / (N : ℂ)

/-- Buffer currently used as scratch (the one not holding the data). -/
def DriverState.scratchBuf {T : Type} (s : DriverState T) : List T :=
  if s.dataInOutput then s.input else s.output

/-- Two driver states that agree on everything except possibly the
contents of the scratch buffer (whose lengths agree).  The kernels never
read the scratch buffer, so the driver preserves this relation; it
formalizes that a transform result does not depend on what the reusable
scratch buffer happened to contain. -/
def StateRel {T : Type} (s1 s2 : DriverState T) : Prop :=
  s1.size = s2.size ∧ s1.stride = s2.stride ∧ s1.twiddles = s2.twiddles ∧
    s1.dataInOutput = s2.dataInOutput ∧ s1.dataBuf = s2.dataBuf ∧
    s1.scratchBuf.length = s2.scratchBuf.length

/-- Identity kernel family over ℕ, used to instantiate kernel-generic
theorems on closed inputs. -/
def idKernel : KernelFn ℕ := fun _ inputBuf _ _ _ _ => inputBuf

/-- Planner output at size 12 over `envNat` (used to instantiate
planner theorems on a closed input). -/
def st12 : Stages ℕ :=
  ⟨12, [(4, 1), (3, 1)], [1, 0, 0, 0, 1, 0, 0, 0, 1, 0, 0, 0, 1, 0, 0],
    [1, 0, 0, 0, 1, 0, 0, 0, 1, 0, 0, 0, 1, 0, 0]⟩

/-- Planner output at size 4 over `envNat`. -/
def st4 : Stages ℕ :=
  ⟨4, [(4, 1)], [1, 0, 0, 0], [1, 0, 0, 0]⟩

/-! ## Properties of the factor-stripping loop -/

theorem numFactorsGo_spec {factor : ℕ} (hf : 2 ≤ factor) :
    ∀ fuel value count, 0 < value → value ≤ fuel →
      ∃ c r, numFactorsGo factor fuel count value = (count + c, r) ∧
        value = factor ^ c * r ∧ 0 < r ∧ ¬ factor ∣ r := by
  intro fuel
  induction fuel with
  | zero => intro value count hv hle; omega
  | succ n ih =>
    intro value count hv hle
    by_cases hmod : value % factor = 0
    · have hdvd : factor ∣ value := Nat.dvd_of_mod_eq_zero hmod
      have hvf : 0 < value / factor := Nat.div_pos (Nat.le_of_dvd hv hdvd) (by omega)
      have hlt : value / factor < value := Nat.div_lt_self hv (by omega)
      obtain ⟨c, r, heq, hval, hr, hnd⟩ := ih (value / factor) (count + 1) hvf (by omega)
      refine ⟨c + 1, r, ?_, ?_, hr, hnd⟩
      · have hstep : numFactorsGo factor (n + 1) count value =
            numFactorsGo factor n (count + 1) (value / factor) := by
          simp [numFactorsGo, hf, hv, hmod]
        rw [hstep, heq]
        congr 1
        omega
      · have hvv : value = factor * (factor ^ c * r) := by
          rw [← hval]
          exact (Nat.mul_div_cancel' hdvd).symm
        rw [hvv]
        ring
    · refine ⟨0, value, ?_, by simp, hv, ?_⟩
      · simp [numFactorsGo, hmod]
      · intro hd
        exact hmod (Nat.mod_eq_zero_of_dvd hd)

theorem num_factors_spec (factor value : ℕ) (hf : 2 ≤ factor) (hv : 0 < value) :
    value = factor ^ (num_factors factor value).1 * (num_factors factor value).2 ∧
      0 < (num_factors factor value).2 ∧ ¬ factor ∣ (num_factors factor value).2 := by
  obtain ⟨c, r, heq, hval, hr, hnd⟩ := numFactorsGo_spec hf value value 0 hv le_rfl
  rw [num_factors, heq]
  simpa using ⟨hval, hr, hnd⟩

/-! ## Structural characterization of the planner output -/

theorem stagesNew_zero {T : Type} (env : FftEnv T) : Stages.new env 0 = none := rfl

theorem stagesNew_pos {T : Type} {env : FftEnv T} {N : ℕ} {st : Stages T}
    (h : Stages.new env N = some st) : 0 < N := by
  rcases Nat.eq_zero_or_pos N with h0 | h1
  · subst h0
    rw [stagesNew_zero] at h
    cases h
  · exact h1

theorem stagesNew_some_eq {T : Type} (env : FftEnv T) (N : ℕ) (st : Stages T)
    (h : Stages.new env N = some st) :
    ∃ c4 r4 c3 r3 c2,
      num_factors 4 N = (c4, r4) ∧ num_factors 3 r4 = (c3, r3) ∧
      num_factors 2 r3 = (c2, 1) ∧
      st.size = N ∧
      st.stages = (if 0 < c4 then [(4, c4)] else []) ++ (if 0 < c3 then [(3, c3)] else [])
        ++ (if 0 < c2 then [(2, c2)] else []) ∧
      st.forward_twiddles =
        (if 0 < c4 then (extend_twiddles env N 4 c4).1 else [])
          ++ (if 0 < c3 then (extend_twiddles env r4 3 c3).1 else [])
          ++ (if 0 < c2 then (extend_twiddles env r3 2 c2).1 else []) ∧
      st.reverse_twiddles =
        (if 0 < c4 then (extend_twiddles env N 4 c4).2 else [])
          ++ (if 0 < c3 then (extend_twiddles env r4 3 c3).2 else [])
          ++ (if 0 < c2 then (extend_twiddles env r3 2 c2).2 else []) := by
  rcases h4 : num_factors 4 N with ⟨c4, r4⟩
  rcases h3 : num_factors 3 r4 with ⟨c3, r3⟩
  rcases h2 : num_factors 2 r3 with ⟨c2, r2⟩
  simp only [Stages.new, h4, h3, h2] at h
  by_cases hr2 : r2 = 1
  · subst hr2
    simp only [ne_eq, not_true_eq_false, if_false, Option.some.injEq] at h
    refine ⟨c4, r4, c3, r3, c2, rfl, h3, h2, ?_, ?_, ?_, ?_⟩ <;> rw [← h]
  · rw [if_pos hr2] at h
    cases h

theorem num_factors_eq_spec {factor value c r : ℕ} (hf : 2 ≤ factor) (hv : 0 < value)
    (h : num_factors factor value = (c, r)) :
    value = factor ^ c * r ∧ 0 < r ∧ ¬ factor ∣ r := by
  have hs := num_factors_spec factor value hf hv
  rw [h] at hs
  exact hs

theorem create_isSome_iff {T : Type} (env : FftEnv T) (N : ℕ) :
    (create env N).isSome ↔ (Stages.new env N).isSome := by
  unfold create PrimeFactor.new
  cases Stages.new env N <;> simp

theorem stagesNew_isSome_of {T : Type} (env : FftEnv T) {N c4 r4 c3 r3 c2 r2 : ℕ}
    (h4 : num_factors 4 N = (c4, r4)) (h3 : num_factors 3 r4 = (c3, r3))
    (h2 : num_factors 2 r3 = (c2, r2)) :
    ((Stages.new env N).isSome ↔ r2 = 1) := by
  simp only [Stages.new, h4, h3, h2]
  by_cases hr2 : r2 = 1 <;> simp [hr2]

/-- Helper: a length of the shape `4^c * 3^b * 2^a` has no prime factor
other than 2 and 3. -/
theorem prime_factor_of_pow_form {N p : ℕ} (hp : p.Prime) (hpd : p ∣ N)
    (h : ∃ a b c : ℕ, N = 4 ^ c * 3 ^ b * 2 ^ a) : p = 2 ∨ p = 3 := by
  obtain ⟨a, b, c, rfl⟩ := h
  have h4 : (4 : ℕ) = 2 ^ 2 := rfl
  rw [h4, ← pow_mul] at hpd
  rcases (Nat.Prime.dvd_mul hp).mp hpd with hd | hd
  · rcases (Nat.Prime.dvd_mul hp).mp hd with hd2 | hd3
    · exact Or.inl ((Nat.prime_dvd_prime_iff_eq hp Nat.prime_two).mp (hp.dvd_of_dvd_pow hd2))
    · exact Or.inr ((Nat.prime_dvd_prime_iff_eq hp Nat.prime_three).mp (hp.dvd_of_dvd_pow hd3))
  · exact Or.inl ((Nat.prime_dvd_prime_iff_eq hp Nat.prime_two).mp (hp.dvd_of_dvd_pow hd))

/-- C1: for every positive length N that factors completely as
`4^c * 3^b * 2^a`, `create` (hence `create_f32` / `create_f64`, its two
precision instances) returns an engine; for every positive N with a prime
factor other than 2 or 3 it returns `none` — construction is a total
function into an option, so there is no panic and no partially constructed
engine.  (The source loop would not terminate at N = 0, which is not a
transform length; the spec restricts lengths to positive integers.) -/
theorem claim_C1 {T : Type} (env : FftEnv T) (N : ℕ) (h : 0 < N) :
    ((create env N).isSome ↔ ∃ a b c : ℕ, N = 4 ^ c * 3 ^ b * 2 ^ a) ∧
    (create env N = none ↔ ∃ p : ℕ, p.Prime ∧ p ∣ N ∧ p ≠ 2 ∧ p ≠ 3) := by
  rcases h4 : num_factors 4 N with ⟨c4, r4⟩
  rcases h3 : num_factors 3 r4 with ⟨c3, r3⟩
  rcases h2 : num_factors 2 r3 with ⟨c2, r2⟩
  obtain ⟨hN4, hr4, hnd4⟩ := num_factors_eq_spec (by omega) h h4
  obtain ⟨hN3, hr3, hnd3⟩ := num_factors_eq_spec (by omega) hr4 h3
  obtain ⟨hN2, hr2, hnd2⟩ := num_factors_eq_spec (by omega) hr3 h2
  have hsome : ((create env N).isSome ↔ r2 = 1) :=
    (create_isSome_iff env N).trans (stagesNew_isSome_of env h4 h3 h2)
  have hr2r3 : r2 ∣ r3 := ⟨2 ^ c2, by rw [hN2]; ring⟩
  have hr3r4 : r3 ∣ r4 := ⟨3 ^ c3, by rw [hN3]; ring⟩
  have hr4N : r4 ∣ N := ⟨4 ^ c4, by rw [hN4]; ring⟩
  have hr2N : r2 ∣ N := (hr2r3.trans hr3r4).trans hr4N
  have hforward : r2 = 1 → ∃ a b c : ℕ, N = 4 ^ c * 3 ^ b * 2 ^ a := by
    intro hone
    refine ⟨c2, c3, c4, ?_⟩
    rw [hN4, hN3, hN2, hone]
    ring
  have hback : (∀ p : ℕ, p.Prime → p ∣ N → p = 2 ∨ p = 3) → r2 = 1 := by
    intro hall
    by_contra hne
    obtain ⟨p, hp, hpd⟩ := Nat.exists_prime_and_dvd hne
    rcases hall p hp (hpd.trans hr2N) with rfl | rfl
    · exact hnd2 hpd
    · exact hnd3 (hpd.trans hr2r3)
  constructor
  · constructor
    · intro hs
      exact hforward (hsome.mp hs)
    · intro hex
      exact hsome.mpr (hback fun p hp hpd => prime_factor_of_pow_form hp hpd hex)
  · rw [← Option.not_isSome_iff_eq_none]
    constructor
    · intro hns
      have hne : r2 ≠ 1 := fun hone => hns (hsome.mpr hone)
      obtain ⟨p, hp, hpd⟩ := Nat.exists_prime_and_dvd hne
      refine ⟨p, hp, hpd.trans hr2N, ?_, ?_⟩
      · rintro rfl
        exact hnd2 hpd
      · rintro rfl
        exact hnd3 (hpd.trans hr2r3)
    · rintro ⟨p, hp, hpd, hp2, hp3⟩ hs
      rcases prime_factor_of_pow_form hp hpd (hforward (hsome.mp hs)) with rfl | rfl
      · exact hp2 rfl
      · exact hp3 rfl

theorem claim_C1_witness :
    ((create envNat 12).isSome ↔ ∃ a b c : ℕ, 12 = 4 ^ c * 3 ^ b * 2 ^ a) ∧
    (create envNat 12 = none ↔ ∃ p : ℕ, p.Prime ∧ p ∣ 12 ∧ p ≠ 2 ∧ p ≠ 3) :=
  claim_C1 envNat 12 (by decide)

/-! ## Stage-list invariants -/

theorem stage_block_prod (r c : ℕ) :
    (((if 0 < c then [(r, c)] else []) : List (ℕ × ℕ)).map fun p => p.1 ^ p.2).prod = r ^ c := by
  by_cases hc : 0 < c
  · simp [hc]
  · have hc0 : c = 0 := by omega
    simp [hc, hc0]

theorem stage_block_mem {r c : ℕ} {p : ℕ × ℕ}
    (hp : p ∈ ((if 0 < c then [(r, c)] else []) : List (ℕ × ℕ))) : p.1 = r ∧ 1 ≤ p.2 := by
  by_cases hc : 0 < c
  · rw [if_pos hc] at hp
    simp only [List.mem_singleton] at hp
    rw [hp]
    exact ⟨rfl, hc⟩
  · rw [if_neg hc] at hp
    cases hp

/-- C3: for every supported N the planner's stage list multiplies out to N
exactly, every stage has radix in {2, 3, 4} with a positive iteration
count, and the list is the radix-4 block, then the radix-3 block, then the
radix-2 block, each present only when its factor count is positive. -/
theorem claim_C3 {T : Type} (env : FftEnv T) (N : ℕ) (st : Stages T)
    (h : Stages.new env N = some st) :
    ((st.stages.map fun p => p.1 ^ p.2).prod = N) ∧
    (∀ p ∈ st.stages, (p.1 = 2 ∨ p.1 = 3 ∨ p.1 = 4) ∧ 1 ≤ p.2) ∧
    (∃ c b a : ℕ, N = 4 ^ c * 3 ^ b * 2 ^ a ∧
      st.stages = (if 0 < c then [(4, c)] else []) ++ (if 0 < b then [(3, b)] else [])
        ++ (if 0 < a then [(2, a)] else [])) := by
  have hN := stagesNew_pos h
  obtain ⟨c4, r4, c3, r3, c2, h4, h3, h2, hsize, hstages, hfw, hrv⟩ :=
    stagesNew_some_eq env N st h
  obtain ⟨hN4, hr4, hnd4⟩ := num_factors_eq_spec (by omega) hN h4
  obtain ⟨hN3, hr3, hnd3⟩ := num_factors_eq_spec (by omega) hr4 h3
  obtain ⟨hN2, hr2, hnd2⟩ := num_factors_eq_spec (by omega) hr3 h2
  have hNfact : N = 4 ^ c4 * 3 ^ c3 * 2 ^ c2 := by
    rw [hN4, hN3, hN2]
    ring
  refine ⟨?_, ?_, c4, c3, c2, hNfact, hstages⟩
  · rw [hstages]
    simp only [List.map_append, List.prod_append]
    rw [stage_block_prod, stage_block_prod, stage_block_prod]
    exact hNfact.symm
  · intro p hp
    rw [hstages] at hp
    simp only [List.mem_append] at hp
    rcases hp with (hp | hp) | hp
    · obtain ⟨e1, e2⟩ := stage_block_mem hp
      exact ⟨Or.inr (Or.inr e1), e2⟩
    · obtain ⟨e1, e2⟩ := stage_block_mem hp
      exact ⟨Or.inr (Or.inl e1), e2⟩
    · obtain ⟨e1, e2⟩ := stage_block_mem hp
      exact ⟨Or.inl e1, e2⟩

theorem claim_C3_witness :
    ((st12.stages.map fun p => p.1 ^ p.2).prod = 12) ∧
    (∀ p ∈ st12.stages, (p.1 = 2 ∨ p.1 = 3 ∨ p.1 = 4) ∧ 1 ≤ p.2) ∧
    (∃ c b a : ℕ, 12 = 4 ^ c * 3 ^ b * 2 ^ a ∧
      st12.stages = (if 0 < c then [(4, c)] else []) ++ (if 0 < b then [(3, b)] else [])
        ++ (if 0 < a then [(2, a)] else [])) :=
  claim_C3 envNat 12 st12 rfl

/-! ## Twiddle-table lengths and exact cursor consumption -/

theorem twiddleGroupsFrom_length {T : Type} (env : FftEnv T) (subsize radix : ℕ)
    (forward : Bool) (hr : 1 ≤ radix) :
    ∀ m i, (twiddleGroupsFrom env subsize radix forward i m).length = m * radix := by
  intro m
  induction m with
  | zero => intro i; simp [twiddleGroupsFrom]
  | succ n ih =>
    intro i
    simp only [twiddleGroupsFrom, List.length_append, List.length_cons, List.length_map,
      List.length_range', ih]
    have h1 : radix - 1 + 1 = radix := by omega
    rw [h1]
    ring

theorem extend_twiddles_length {T : Type} (env : FftEnv T) {radix : ℕ} (hr : 1 ≤ radix) :
    ∀ iterations subsize,
      (extend_twiddles env subsize radix iterations).1.length = twLen subsize radix iterations ∧
      (extend_twiddles env subsize radix iterations).2.length = twLen subsize radix iterations := by
  intro its
  induction its with
  | zero => intro s; exact ⟨rfl, rfl⟩
  | succ n ih =>
    intro s
    constructor <;>
      simp [extend_twiddles, twLen, twiddleGroupsFrom_length env s radix _ hr,
        (ih (s / radix)).1, (ih (s / radix)).2]

theorem consumeStage_twLen {radix : ℕ} (hr : 1 ≤ radix) :
    ∀ iterations size rest, radix ^ iterations ∣ size →
      consumeStage radix iterations (size, twLen size radix iterations + rest) =
        some (size / radix ^ iterations, rest) := by
  intro its
  induction its with
  | zero =>
    intro size rest _
    simp [consumeStage, twLen]
  | succ n ih =>
    intro size rest hdvd
    have hdr : radix ∣ size := dvd_trans (dvd_pow_self radix (Nat.succ_ne_zero n)) hdvd
    have hmul : size / radix * radix = size := Nat.div_mul_cancel hdr
    have hmod : size % radix = 0 := Nat.mod_eq_zero_of_dvd hdr
    have hdvd2 : radix ^ n ∣ size / radix := by
      obtain ⟨k, hk⟩ := hdvd
      refine ⟨k, ?_⟩
      have hsz : size = radix * (radix ^ n * k) := by
        rw [hk, pow_succ]
        ring
      rw [hsz, Nat.mul_div_cancel_left _ (by omega : 0 < radix)]
    have hle : size ≤ twLen size radix (n + 1) + rest := by
      simp only [twLen]
      omega
    have hsub : twLen size radix (n + 1) + rest - size = twLen (size / radix) radix n + rest := by
      simp only [twLen]
      omega
    have hstep : consumeStage radix (n + 1) (size, twLen size radix (n + 1) + rest) =
        consumeStage radix n (size / radix, twLen (size / radix) radix n + rest) := by
      simp only [consumeStage]
      rw [if_pos ⟨hle, hmod⟩, hsub]
    rw [hstep, ih (size / radix) rest hdvd2, Nat.div_div_eq_div_mul, ← pow_succ']

theorem twLenTotal_block (r c : ℕ) (rest : List (ℕ × ℕ)) (s : ℕ) :
    twLenTotal ((if 0 < c then [(r, c)] else []) ++ rest) s =
      twLen s r c + twLenTotal rest (s / r ^ c) := by
  by_cases hc : 0 < c
  · rw [if_pos hc]
    rfl
  · have hc0 : c = 0 := by omega
    subst hc0
    rw [if_neg hc, List.nil_append]
    simp [twLen]

theorem consumeStages_block {r c : ℕ} {st st2 : ℕ × ℕ} (rest : List (ℕ × ℕ))
    (h : consumeStage r c st = some st2) :
    consumeStages ((if 0 < c then [(r, c)] else []) ++ rest) st = consumeStages rest st2 := by
  by_cases hc : 0 < c
  · rw [if_pos hc]
    show consumeStages ((r, c) :: rest) st = _
    simp [consumeStages, h]
  · have hc0 : c = 0 := by omega
    subst hc0
    simp only [consumeStage] at h
    have hst : st = st2 := Option.some.inj h
    subst hst
    rw [if_neg hc, List.nil_append]

theorem twLenTotal_single (r c s : ℕ) :
    twLenTotal (if 0 < c then [(r, c)] else []) s = twLen s r c := by
  by_cases hc : 0 < c
  · rw [if_pos hc]
    show twLen s r c + twLenTotal [] (s / r ^ c) = twLen s r c
    simp [twLenTotal]
  · have hc0 : c = 0 := by omega
    subst hc0
    rw [if_neg hc]
    simp [twLen, twLenTotal]

theorem consumeStages_single {r c : ℕ} {st st2 : ℕ × ℕ}
    (h : consumeStage r c st = some st2) :
    consumeStages (if 0 < c then [(r, c)] else []) st = some st2 := by
  by_cases hc : 0 < c
  · rw [if_pos hc]
    show consumeStages [(r, c)] st = some st2
    simp [consumeStages, h]
  · have hc0 : c = 0 := by omega
    subst hc0
    simp only [consumeStage] at h
    have hst : st = st2 := Option.some.inj h
    subst hst
    rw [if_neg hc]
    rfl

theorem block_tw_len {T : Type} (env : FftEnv T) (s r c : ℕ) (hr : 1 ≤ r) :
    ((if 0 < c then (extend_twiddles env s r c).1 else []).length = twLen s r c) ∧
    ((if 0 < c then (extend_twiddles env s r c).2 else []).length = twLen s r c) := by
  by_cases hc : 0 < c
  · simp [hc, (extend_twiddles_length env hr c s).1, (extend_twiddles_length env hr c s).2]
  · have hc0 : c = 0 := by omega
    subst hc0
    simp [hc, twLen]

/-- Core table/cursor lemma for planner output: both twiddle tables have
length `twLenTotal st.stages N`, and the driver cursor simulation consumes
the table exactly, every iteration in bounds, ending with sub-size 1 and
zero remaining entries. -/
theorem stagesNew_tables {T : Type} (env : FftEnv T) (N : ℕ) (st : Stages T)
    (h : Stages.new env N = some st) :
    st.size = N ∧
    st.forward_twiddles.length = twLenTotal st.stages N ∧
    st.reverse_twiddles.length = twLenTotal st.stages N ∧
    consumeStages st.stages (N, twLenTotal st.stages N) = some (1, 0) := by
  have hN := stagesNew_pos h
  obtain ⟨c4, r4, c3, r3, c2, h4, h3, h2, hsize, hstages, hfw, hrv⟩ :=
    stagesNew_some_eq env N st h
  obtain ⟨hN4, hr4, hnd4⟩ := num_factors_eq_spec (by omega) hN h4
  obtain ⟨hN3, hr3, hnd3⟩ := num_factors_eq_spec (by omega) hr4 h3
  obtain ⟨hN2, hr2, hnd2⟩ := num_factors_eq_spec (by omega) hr3 h2
  have hq4 : N / 4 ^ c4 = r4 := by
    rw [hN4, Nat.mul_div_cancel_left _ (Nat.pos_pow_of_pos c4 (by omega))]
  have hq3 : r4 / 3 ^ c3 = r3 := by
    rw [hN3, Nat.mul_div_cancel_left _ (Nat.pos_pow_of_pos c3 (by omega))]
  have hq2 : r3 / 2 ^ c2 = 1 := by
    rw [hN2, Nat.mul_div_cancel_left _ (Nat.pos_pow_of_pos c2 (by omega))]
  have htot : twLenTotal st.stages N = twLen N 4 c4 + (twLen r4 3 c3 + twLen r3 2 c2) := by
    rw [hstages, List.append_assoc, twLenTotal_block, hq4, twLenTotal_block, hq3,
      twLenTotal_single]
  refine ⟨hsize, ?_, ?_, ?_⟩
  · rw [hfw, htot]
    simp only [List.length_append,
      (block_tw_len env N 4 c4 (by omega)).1, (block_tw_len env r4 3 c3 (by omega)).1,
      (block_tw_len env r3 2 c2 (by omega)).1]
    omega
  · rw [hrv, htot]
    simp only [List.length_append,
      (block_tw_len env N 4 c4 (by omega)).2, (block_tw_len env r4 3 c3 (by omega)).2,
      (block_tw_len env r3 2 c2 (by omega)).2]
    omega
  · rw [htot, hstages]
    have s4 : consumeStage 4 c4 (N, twLen N 4 c4 + (twLen r4 3 c3 + twLen r3 2 c2)) =
        some (r4, twLen r4 3 c3 + twLen r3 2 c2) := by
      have := consumeStage_twLen (by omega : 1 ≤ 4) c4 N (twLen r4 3 c3 + twLen r3 2 c2)
        ⟨r4, hN4⟩
      rwa [hq4] at this
    have s3 : consumeStage 3 c3 (r4, twLen r4 3 c3 + twLen r3 2 c2) =
        some (r3, twLen r3 2 c2) := by
      have := consumeStage_twLen (by omega : 1 ≤ 3) c3 r4 (twLen r3 2 c2) ⟨r3, hN3⟩
      rwa [hq3] at this
    have s2 : consumeStage 2 c2 (r3, twLen r3 2 c2 + 0) = some (1, 0) := by
      have := consumeStage_twLen (by omega : 1 ≤ 2) c2 r3 0 ⟨1, by simpa using hN2⟩
      rwa [hq2] at this
    rw [List.append_assoc, consumeStages_block _ s4, consumeStages_block _ s3,
      consumeStages_single (by simpa using s2)]

/-- C7 (amended): for every supported N, each twiddle table's length equals
the sum, over all stages and all iterations of each stage, of the sub-size
current at that iteration (`twLenTotal`), and the Stage Driver cursor
consumes exactly that many entries — each iteration consumes the current
sub-size worth of entries once, monotonically, and the cursor ends exactly
at the end of the table (remaining length 0) after the last stage. -/
theorem claim_C7 {T : Type} (env : FftEnv T) (N : ℕ) (st : Stages T)
    (h : Stages.new env N = some st) :
    st.forward_twiddles.length = twLenTotal st.stages st.size ∧
    st.reverse_twiddles.length = twLenTotal st.stages st.size ∧
    consumeStages st.stages (st.size, st.forward_twiddles.length) = some (1, 0) ∧
    consumeStages st.stages (st.size, st.reverse_twiddles.length) = some (1, 0) := by
  obtain ⟨hsize, hfw, hrv, hcons⟩ := stagesNew_tables env N st h
  rw [hsize, hfw, hrv]
  exact ⟨rfl, rfl, hcons, hcons⟩

theorem claim_C7_witness :
    st12.forward_twiddles.length = twLenTotal st12.stages st12.size ∧
    st12.reverse_twiddles.length = twLenTotal st12.stages st12.size ∧
    consumeStages st12.stages (st12.size, st12.forward_twiddles.length) = some (1, 0) ∧
    consumeStages st12.stages (st12.size, st12.reverse_twiddles.length) = some (1, 0) :=
  claim_C7 envNat 12 st12 rfl

/-- C7 counterexample: at the supported length N = 16 the planner produces
the stage list `[(4, 2)]` and a forward table of length 20 (16 entries for
the first iteration at sub-size 16, 4 for the second at sub-size 4), while
the spec formula `sum over stages of (iterations × current_subsize)` gives
`2 × 16 = 32`. -/
theorem claim_C7_counterexample : c7FwdLenAt 16 = some 20 ∧ c7ClaimedLenAt 16 = some 32 :=
  ⟨rfl, rfl⟩

/-! ## In-bounds twiddle access along the actual driver loop -/

theorem driverStep_consume {T : Type} (k : KernelFn T) (fwd : Bool) {radix : ℕ}
    (hr : radix = 4 ∨ radix = 3 ∨ radix = 2) (s : DriverState T)
    (hle : s.size ≤ s.twiddles.length) (hmod : s.size % radix = 0) :
    driverStepChecked k fwd radix s = driverStep k fwd radix s ∧
    ∃ t, driverStep k fwd radix s = some t ∧ t.size = s.size / radix ∧
      t.twiddles.length = s.twiddles.length - s.size ∧ t.stride = s.stride * radix := by
  have hrok : radix = 4 ∨ radix = 3 ∨ radix = 2 := hr
  constructor
  · rw [driverStepChecked, if_pos ⟨hle, hmod⟩]
  · rw [driverStep, if_pos hrok]
    refine ⟨_, rfl, rfl, ?_, rfl⟩
    have hdvd : radix ∣ s.size := Nat.dvd_of_mod_eq_zero hmod
    have hcancel : s.size / radix * radix = s.size := Nat.div_mul_cancel hdvd
    simp only [List.length_drop, hcancel]

theorem runWide_consume {T : Type} (wideK : KernelFn T) (fwd : Bool) {radix : ℕ}
    (hr : radix = 4 ∨ radix = 3 ∨ radix = 2) :
    ∀ n (s : DriverState T) (res : ℕ × ℕ),
      consumeStage radix n (s.size, s.twiddles.length) = some res →
      runWideChecked wideK fwd radix n s = runWide wideK fwd radix n s ∧
      ∃ t, runWide wideK fwd radix n s = some t ∧ t.size = res.1 ∧
        t.twiddles.length = res.2 := by
  intro n
  induction n with
  | zero =>
    intro s res hres
    simp only [consumeStage, Option.some.injEq] at hres
    refine ⟨rfl, s, rfl, ?_, ?_⟩ <;> rw [← hres]
  | succ m ih =>
    intro s res hres
    rw [show consumeStage radix (m + 1) (s.size, s.twiddles.length) =
        if s.size ≤ s.twiddles.length ∧ s.size % radix = 0 then
          consumeStage radix m (s.size / radix, s.twiddles.length - s.size)
        else none from rfl] at hres
    by_cases hg : s.size ≤ s.twiddles.length ∧ s.size % radix = 0
    · rw [if_pos hg] at hres
      obtain ⟨hstep, t, ht, htsz, httl, hstr2⟩ := driverStep_consume wideK fwd hr s hg.1 hg.2
      have hres2 : consumeStage radix m (t.size, t.twiddles.length) = some res := by
        rw [htsz, httl]
        exact hres
      obtain ⟨heq, u, hu, husz, hutl⟩ := ih t res hres2
      constructor
      · rw [runWideChecked, runWide, hstep, ht]
        exact heq
      · rw [runWide, ht]
        exact ⟨u, hu, husz, hutl⟩
    · rw [if_neg hg] at hres
      cases hres

theorem runStage_consume {T : Type} (narrowK wideK : KernelFn T) (w : ℕ) (fwd : Bool)
    {radix : ℕ} (hr : radix = 4 ∨ radix = 3 ∨ radix = 2) :
    ∀ n (s : DriverState T) (res : ℕ × ℕ),
      consumeStage radix n (s.size, s.twiddles.length) = some res →
      runStageChecked narrowK wideK w fwd radix n s = runStage narrowK wideK w fwd radix n s ∧
      ∃ t, runStage narrowK wideK w fwd radix n s = some t ∧ t.size = res.1 ∧
        t.twiddles.length = res.2 := by
  intro n
  induction n with
  | zero =>
    intro s res hres
    simp only [consumeStage, Option.some.injEq] at hres
    refine ⟨rfl, s, rfl, ?_, ?_⟩ <;> rw [← hres]
  | succ m ih =>
    intro s res hres
    rw [show consumeStage radix (m + 1) (s.size, s.twiddles.length) =
        if s.size ≤ s.twiddles.length ∧ s.size % radix = 0 then
          consumeStage radix m (s.size / radix, s.twiddles.length - s.size)
        else none from rfl] at hres
    by_cases hg : s.size ≤ s.twiddles.length ∧ s.size % radix = 0
    · rw [if_pos hg] at hres
      by_cases hstr : s.stride < w
      · obtain ⟨hstep, t, ht, htsz, httl, hstr2⟩ :=
          driverStep_consume narrowK fwd hr s hg.1 hg.2
        have hres2 : consumeStage radix m (t.size, t.twiddles.length) = some res := by
          rw [htsz, httl]
          exact hres
        obtain ⟨heq, u, hu, husz, hutl⟩ := ih t res hres2
        constructor
        · rw [runStageChecked, runStage, if_pos hstr, if_pos hstr, hstep, ht]
          exact heq
        · rw [runStage, if_pos hstr, ht]
          exact ⟨u, hu, husz, hutl⟩
      · have hres3 : consumeStage radix (m + 1) (s.size, s.twiddles.length) = some res := by
          rw [show consumeStage radix (m + 1) (s.size, s.twiddles.length) =
              if s.size ≤ s.twiddles.length ∧ s.size % radix = 0 then
                consumeStage radix m (s.size / radix, s.twiddles.length - s.size)
              else none from rfl, if_pos hg]
          exact hres
        obtain ⟨heq, u, hu, husz, hutl⟩ := runWide_consume wideK fwd hr (m + 1) s res hres3
        constructor
        · rw [runStageChecked, runStage, if_neg hstr, if_neg hstr, heq]
        · rw [runStage, if_neg hstr]
          exact ⟨u, hu, husz, hutl⟩
    · rw [if_neg hg] at hres
      cases hres

theorem runStages_consume {T : Type} (narrowK wideK : KernelFn T) (w : ℕ) (fwd : Bool) :
    ∀ (stages : List (ℕ × ℕ)) (s : DriverState T) (res : ℕ × ℕ),
      (∀ p ∈ stages, p.1 = 4 ∨ p.1 = 3 ∨ p.1 = 2) →
      consumeStages stages (s.size, s.twiddles.length) = some res →
      runStagesChecked narrowK wideK w fwd stages s = runStages narrowK wideK w fwd stages s ∧
      ∃ t, runStages narrowK wideK w fwd stages s = some t ∧ t.size = res.1 ∧
        t.twiddles.length = res.2 := by
  intro stages
  induction stages with
  | nil =>
    intro s res _ hres
    simp only [consumeStages, Option.some.injEq] at hres
    refine ⟨rfl, s, rfl, ?_, ?_⟩ <;> rw [← hres]
  | cons hd rest ih =>
    intro s res hmem hres
    obtain ⟨radix, iterations⟩ := hd
    have hr : radix = 4 ∨ radix = 3 ∨ radix = 2 := hmem (radix, iterations) (by simp)
    rw [show consumeStages ((radix, iterations) :: rest) (s.size, s.twiddles.length) =
        match consumeStage radix iterations (s.size, s.twiddles.length) with
        | some st2 => consumeStages rest st2
        | none => none from rfl] at hres
    rcases hmid : consumeStage radix iterations (s.size, s.twiddles.length) with _ | mid
    · rw [hmid] at hres
      cases hres
    · rw [hmid] at hres
      obtain ⟨heq, t, ht, htsz, httl⟩ :=
        runStage_consume narrowK wideK w fwd hr iterations s mid hmid
      have hres2 : consumeStages rest (t.size, t.twiddles.length) = some res := by
        rw [htsz, httl]
        exact hres
      obtain ⟨heq2, u, hu, husz, hutl⟩ :=
        ih t res (fun p hp => hmem p (List.mem_cons_of_mem _ hp)) hres2
      constructor
      · rw [runStagesChecked, runStages, heq, ht]
        exact heq2
      · rw [runStages, ht]
        exact ⟨u, hu, husz, hutl⟩

theorem stagesNew_radix_mem {T : Type} {env : FftEnv T} {N : ℕ} {st : Stages T}
    (h : Stages.new env N = some st) :
    ∀ p ∈ st.stages, p.1 = 4 ∨ p.1 = 3 ∨ p.1 = 2 := by
  obtain ⟨c4, r4, c3, r3, c2, h4, h3, h2, hsize, hstages, hfw, hrv⟩ :=
    stagesNew_some_eq env N st h
  intro p hp
  rw [hstages] at hp
  simp only [List.mem_append] at hp
  rcases hp with (hp | hp) | hp
  · exact Or.inl (stage_block_mem hp).1
  · exact Or.inr (Or.inl (stage_block_mem hp).1)
  · exact Or.inr (Or.inr (stage_block_mem hp).1)

/-- C9: for every supported N and either direction, running the actual
driver loop with the in-bounds checks switched on (each iteration verifies
that the remaining twiddle slice holds at least `size` entries — hence
every kernel access `twiddles[j * radix + i]` with `j < size / radix`,
`i < radix` is within the passed slice — and that the advance
`&twiddles[(size / radix) * radix ..]` taken after `size /= radix` cuts
exactly `size` entries without exceeding the slice) is the same run as the
unchecked driver, and the run succeeds, for every kernel family and vector
width. -/
theorem claim_C9 {T : Type} (env : FftEnv T) (N : ℕ) (st : Stages T)
    (h : Stages.new env N = some st) (narrowK wideK : KernelFn T) (w : ℕ) (forward : Bool)
    (input output : List T) :
    runStagesChecked narrowK wideK w forward st.stages
        ⟨input, output, st.size, 1,
          if forward then st.forward_twiddles else st.reverse_twiddles, false⟩ =
      runStages narrowK wideK w forward st.stages
        ⟨input, output, st.size, 1,
          if forward then st.forward_twiddles else st.reverse_twiddles, false⟩ ∧
    (runStages narrowK wideK w forward st.stages
        ⟨input, output, st.size, 1,
          if forward then st.forward_twiddles else st.reverse_twiddles, false⟩).isSome := by
  obtain ⟨hsize, hfw, hrv, hcons⟩ := stagesNew_tables env N st h
  have hmem := stagesNew_radix_mem h
  have hcons2 : consumeStages st.stages
      ((⟨input, output, st.size, 1,
        if forward then st.forward_twiddles else st.reverse_twiddles, false⟩ :
          DriverState T).size,
        (⟨input, output, st.size, 1,
          if forward then st.forward_twiddles else st.reverse_twiddles, false⟩ :
            DriverState T).twiddles.length) = some (1, 0) := by
    cases forward <;> simpa [hsize, hfw, hrv] using hcons
  obtain ⟨heq, t, ht, _, _⟩ :=
    runStages_consume narrowK wideK w forward st.stages _ (1, 0) hmem hcons2
  refine ⟨heq, ?_⟩
  rw [ht]
  rfl

theorem claim_C9_witness :
    runStagesChecked idKernel idKernel 4 true st4.stages
        ⟨[1, 2, 3, 4], [0, 0, 0, 0], st4.size, 1,
          if true then st4.forward_twiddles else st4.reverse_twiddles, false⟩ =
      runStages idKernel idKernel 4 true st4.stages
        ⟨[1, 2, 3, 4], [0, 0, 0, 0], st4.size, 1,
          if true then st4.forward_twiddles else st4.reverse_twiddles, false⟩ ∧
    (runStages idKernel idKernel 4 true st4.stages
        ⟨[1, 2, 3, 4], [0, 0, 0, 0], st4.size, 1,
          if true then st4.forward_twiddles else st4.reverse_twiddles, false⟩).isSome :=
  claim_C9 envNat 4 st4 rfl idKernel idKernel 4 true [1, 2, 3, 4] [0, 0, 0, 0]

/-! ## Buffer-length contract of the driver -/

/-- C8: whenever the caller buffer and the scratch buffer differ in
length, or the plan length differs from the buffer length, the stage
driver fails its assertions (modelled as `none`) before any stage runs —
for every kernel family, so no sample is ever transformed, and no partial
result is returned. -/
theorem claim_C8 {T : Type} (env : FftEnv T) (narrowK wideK : KernelFn T) (w : ℕ)
    (input output : List T) (stages : Stages T) (forward : Bool)
    (h : input.length ≠ output.length ∨ stages.size ≠ input.length) :
    apply_stages narrowK wideK w env input output stages forward = none := by
  rw [apply_stages, if_neg]
  rintro ⟨h1, h2⟩
  rcases h with hbad | hbad
  · exact hbad h1
  · exact hbad h2

theorem claim_C8_witness :
    apply_stages idKernel idKernel 0 envNat [0] [] ⟨1, [], [], []⟩ true = none :=
  claim_C8 envNat idKernel idKernel 0 [0] [] ⟨1, [], [], []⟩ true (Or.inl (by decide))

theorem driverStep_lengths {T : Type} {k : KernelFn T} (hk : KernelPreservesLength k)
    {fwd : Bool} {radix : ℕ} {s t : DriverState T} (h : driverStep k fwd radix s = some t)
    {n : ℕ} (hi : s.input.length = n) (ho : s.output.length = n) :
    t.input.length = n ∧ t.output.length = n := by
  have hk2 := hk
  simp only [KernelPreservesLength] at hk2
  rw [driverStep] at h
  by_cases hr : radix = 4 ∨ radix = 3 ∨ radix = 2
  · rw [if_pos hr, Option.some.injEq] at h
    subst h
    by_cases hd : s.dataInOutput <;> simp [hd, hk2, hi, ho]
  · rw [if_neg hr] at h
    cases h

theorem runWide_lengths {T : Type} {wideK : KernelFn T} (hwk : KernelPreservesLength wideK)
    (fwd : Bool) (radix : ℕ) {n : ℕ} :
    ∀ m (s t : DriverState T), runWide wideK fwd radix m s = some t →
      s.input.length = n → s.output.length = n →
      t.input.length = n ∧ t.output.length = n := by
  intro m
  induction m with
  | zero =>
    intro s t h hi ho
    cases h
    exact ⟨hi, ho⟩
  | succ m ih =>
    intro s t h hi ho
    rw [runWide] at h
    rcases hstep : driverStep wideK fwd radix s with _ | u
    · rw [hstep] at h
      cases h
    · rw [hstep] at h
      obtain ⟨hui, huo⟩ := driverStep_lengths hwk hstep hi ho
      exact ih u t h hui huo

theorem runStage_lengths {T : Type} {narrowK wideK : KernelFn T}
    (hnk : KernelPreservesLength narrowK) (hwk : KernelPreservesLength wideK)
    (w : ℕ) (fwd : Bool) (radix : ℕ) {n : ℕ} :
    ∀ m (s t : DriverState T), runStage narrowK wideK w fwd radix m s = some t →
      s.input.length = n → s.output.length = n →
      t.input.length = n ∧ t.output.length = n := by
  intro m
  induction m with
  | zero =>
    intro s t h hi ho
    cases h
    exact ⟨hi, ho⟩
  | succ m ih =>
    intro s t h hi ho
    rw [runStage] at h
    by_cases hstr : s.stride < w
    · rw [if_pos hstr] at h
      rcases hstep : driverStep narrowK fwd radix s with _ | u
      · rw [hstep] at h
        cases h
      · rw [hstep] at h
        obtain ⟨hui, huo⟩ := driverStep_lengths hnk hstep hi ho
        exact ih u t h hui huo
    · rw [if_neg hstr] at h
      exact runWide_lengths hwk fwd radix (m + 1) s t h hi ho

theorem runStages_lengths {T : Type} {narrowK wideK : KernelFn T}
    (hnk : KernelPreservesLength narrowK) (hwk : KernelPreservesLength wideK)
    (w : ℕ) (fwd : Bool) {n : ℕ} :
    ∀ (stages : List (ℕ × ℕ)) (s t : DriverState T),
      runStages narrowK wideK w fwd stages s = some t →
      s.input.length = n → s.output.length = n →
      t.input.length = n ∧ t.output.length = n := by
  intro stages
  induction stages with
  | nil =>
    intro s t h hi ho
    cases h
    exact ⟨hi, ho⟩
  | cons hd rest ih =>
    intro s t h hi ho
    obtain ⟨radix, iterations⟩ := hd
    rw [runStages] at h
    rcases hstep : runStage narrowK wideK w fwd radix iterations s with _ | u
    · rw [hstep] at h
      cases h
    · rw [hstep] at h
      obtain ⟨hui, huo⟩ := runStage_lengths hnk hwk w fwd radix iterations s u hstep hi ho
      exact ih u t h hui huo

theorem zipWith_left_map {T U : Type} (f : T → U) :
    ∀ (a b : List T), a.length ≤ b.length →
      List.zipWith (fun x _ => f x) a b = a.map f := by
  intro a
  induction a with
  | nil => intro b _; rfl
  | cons x xs ih =>
    intro b hb
    cases b with
    | nil => simp at hb
    | cons y ys =>
      simp only [List.zipWith_cons_cons, List.map_cons]
      rw [ih ys (by simpa using hb)]

/-- Helper: the final block of `apply_stages` expressed uniformly through
the parity of the final state. -/
theorem apply_stages_final {T : Type} (env : FftEnv T) (narrowK wideK : KernelFn T) (w : ℕ)
    (input output : List T) (st : Stages T) (forward : Bool) (s : DriverState T)
    (hnk : KernelPreservesLength narrowK) (hwk : KernelPreservesLength wideK)
    (h1 : input.length = output.length) (h2 : st.size = input.length)
    (hs : runStages narrowK wideK w forward st.stages
        ⟨input, output, st.size, 1,
          if forward then st.forward_twiddles else st.reverse_twiddles, false⟩ = some s) :
    apply_stages narrowK wideK w env input output st forward =
      some ((if forward then s.dataBuf
        else s.dataBuf.map fun x => env.div x (env.ofSize st.size)), s.output) := by
  obtain ⟨hsi, hso⟩ := runStages_lengths hnk hwk w forward st.stages _ s hs rfl h1.symm
  rw [apply_stages, if_pos ⟨h1, h2⟩, hs]
  cases forward with
  | false =>
    simp only [Bool.false_eq_true, if_false]
    by_cases hd : s.dataInOutput
    · rw [if_pos hd]
      have hdd : s.dataBuf = s.output := by rw [DriverState.dataBuf, if_pos hd]
      have hempty : s.input.drop s.output.length = [] :=
        List.drop_eq_nil_of_le (by omega)
      rw [hdd, zipWith_left_map _ _ _ (by omega), hempty, List.append_nil]
    · rw [if_neg hd]
      have hdd : s.dataBuf = s.input := by rw [DriverState.dataBuf, if_neg hd]
      rw [hdd]
  | true =>
    simp only [if_true]
    by_cases hd : s.dataInOutput
    · rw [if_pos hd, if_pos (by omega : s.input.length = s.output.length)]
      have hdd : s.dataBuf = s.output := by rw [DriverState.dataBuf, if_pos hd]
      rw [hdd]
    · rw [if_neg hd]
      have hdd : s.dataBuf = s.input := by rw [DriverState.dataBuf, if_neg hd]
      rw [hdd]

/-- C5: for every supported plan and any kernels that keep buffer lengths
(as Rust slices do), once the stage walk ends in state `s`, a forward
transform returns the data buffer unscaled, and an inverse transform
returns the data buffer with every sample divided by `stages.size` in one
final pass — the same single map whether the data ended in the scratch
buffer (scaling fused into the copy-back) or in the caller buffer (scaling
in place); no other scaling occurs anywhere in the driver. -/
theorem claim_C5 {T : Type} (env : FftEnv T) (narrowK wideK : KernelFn T) (w : ℕ)
    (input output : List T) (st : Stages T) (forward : Bool) (s : DriverState T)
    (hnk : KernelPreservesLength narrowK) (hwk : KernelPreservesLength wideK)
    (h1 : input.length = output.length) (h2 : st.size = input.length)
    (hs : runStages narrowK wideK w forward st.stages
        ⟨input, output, st.size, 1,
          if forward then st.forward_twiddles else st.reverse_twiddles, false⟩ = some s) :
    apply_stages narrowK wideK w env input output st forward =
      some ((if forward then s.dataBuf
        else s.dataBuf.map fun x => env.div x (env.ofSize st.size)), s.output) :=
  apply_stages_final env narrowK wideK w input output st forward s hnk hwk h1 h2 hs

theorem claim_C5_witness :
    apply_stages idKernel idKernel 0 envNat [7] [9] ⟨1, [], [], []⟩ true =
      some ((if true then (⟨[7], [9], 1, 1, [], false⟩ : DriverState ℕ).dataBuf
        else (⟨[7], [9], 1, 1, [], false⟩ : DriverState ℕ).dataBuf.map
          fun x => envNat.div x (envNat.ofSize 1)),
        (⟨[7], [9], 1, 1, [], false⟩ : DriverState ℕ).output) :=
  claim_C5 envNat idKernel idKernel 0 [7] [9] ⟨1, [], [], []⟩ true
    ⟨[7], [9], 1, 1, [], false⟩ (fun _ _ _ _ _ _ => rfl) (fun _ _ _ _ _ _ => rfl) rfl rfl rfl

/-- C6: at N = 1 the planner yields the empty stage list (for any scalar
environment), and the engine transform is the identity on a length-1
buffer in both directions over the exact-complex environment: the driver
runs no stage, the forward path returns the caller buffer untouched, and
the inverse path divides by N = 1, which leaves every sample unchanged;
the engine (including its scratch cell) is returned unchanged. -/
theorem claim_C6 :
    (∀ (T : Type) (env : FftEnv T), Stages.new env 1 = some ⟨1, [], [], []⟩) ∧
    (∀ (narrowK wideK : KernelFn ℂ) (w : ℕ) (z : ℂ) (forward : Bool),
      PrimeFactor.new envC 1 = some ⟨⟨1, [], [], []⟩, [0], 1⟩ ∧
      PrimeFactor.transform_in_place narrowK wideK w envC ⟨⟨1, [], [], []⟩, [0], 1⟩ [z]
          forward =
        some ([z], ⟨⟨1, [], [], []⟩, [0], 1⟩)) := by
  refine ⟨fun T env => rfl, fun narrowK wideK w z forward => ⟨rfl, ?_⟩⟩
  cases forward with
  | true => rfl
  | false =>
    simp [PrimeFactor.transform_in_place, apply_stages, runStages, envC]

/-! ## Scratch-content independence and the engine frame conditions -/


theorem driverStep_some {T : Type} (k : KernelFn T) (fwd : Bool) {radix : ℕ}
    (hr : radix = 4 ∨ radix = 3 ∨ radix = 2) (s : DriverState T) :
    ∃ t, driverStep k fwd radix s = some t ∧
      t.size = s.size / radix ∧ t.stride = s.stride * radix ∧
      t.twiddles = s.twiddles.drop (s.size / radix * radix) ∧
      t.dataInOutput = !s.dataInOutput ∧
      t.dataBuf = k radix s.dataBuf fwd s.size s.stride s.twiddles ∧
      t.scratchBuf = s.dataBuf := by
  rw [driverStep, if_pos hr]
  refine ⟨_, rfl, rfl, rfl, rfl, rfl, ?_, ?_⟩
  · cases hd : s.dataInOutput <;> simp [DriverState.dataBuf, hd]
  · cases hd : s.dataInOutput <;> simp [DriverState.dataBuf, DriverState.scratchBuf, hd]

theorem driverStep_rel {T : Type} (k : KernelFn T) (fwd : Bool) (radix : ℕ)
    {s1 s2 : DriverState T} (hrel : StateRel s1 s2) :
    (driverStep k fwd radix s1 = none ∧ driverStep k fwd radix s2 = none) ∨
    (∃ t1 t2, driverStep k fwd radix s1 = some t1 ∧ driverStep k fwd radix s2 = some t2 ∧
      StateRel t1 t2) := by
  obtain ⟨hsz, hst, htw, hfl, hdb, hsc⟩ := hrel
  by_cases hr : radix = 4 ∨ radix = 3 ∨ radix = 2
  · obtain ⟨t1, ht1, a1, b1, c1, d1, e1, f1⟩ := driverStep_some k fwd hr s1
    obtain ⟨t2, ht2, a2, b2, c2, d2, e2, f2⟩ := driverStep_some k fwd hr s2
    right
    refine ⟨t1, t2, ht1, ht2, ?_, ?_, ?_, ?_, ?_, ?_⟩
    · rw [a1, a2, hsz]
    · rw [b1, b2, hst]
    · rw [c1, c2, hsz, htw]
    · rw [d1, d2, hfl]
    · rw [e1, e2, hdb, hsz, hst, htw]
    · rw [f1, f2, hdb]
  · left
    exact ⟨by rw [driverStep, if_neg hr], by rw [driverStep, if_neg hr]⟩

theorem runWide_rel {T : Type} (wideK : KernelFn T) (fwd : Bool) (radix : ℕ) :
    ∀ m {s1 s2 : DriverState T}, StateRel s1 s2 →
      (runWide wideK fwd radix m s1 = none ∧ runWide wideK fwd radix m s2 = none) ∨
      (∃ t1 t2, runWide wideK fwd radix m s1 = some t1 ∧
        runWide wideK fwd radix m s2 = some t2 ∧ StateRel t1 t2) := by
  intro m
  induction m with
  | zero =>
    intro s1 s2 hrel
    exact Or.inr ⟨s1, s2, rfl, rfl, hrel⟩
  | succ m ih =>
    intro s1 s2 hrel
    rcases driverStep_rel wideK fwd radix hrel with ⟨hn1, hn2⟩ | ⟨u1, u2, hu1, hu2, hrel2⟩
    · left
      constructor <;> rw [runWide]
      · rw [hn1]
      · rw [hn2]
    · rcases ih hrel2 with ⟨hn1, hn2⟩ | ⟨t1, t2, ht1, ht2, hrel3⟩
      · left
        constructor <;> rw [runWide]
        · rw [hu1]
          exact hn1
        · rw [hu2]
          exact hn2
      · right
        refine ⟨t1, t2, ?_, ?_, hrel3⟩
        · rw [runWide, hu1]
          exact ht1
        · rw [runWide, hu2]
          exact ht2

theorem runStage_rel {T : Type} (narrowK wideK : KernelFn T) (w : ℕ) (fwd : Bool)
    (radix : ℕ) :
    ∀ m {s1 s2 : DriverState T}, StateRel s1 s2 →
      (runStage narrowK wideK w fwd radix m s1 = none ∧
        runStage narrowK wideK w fwd radix m s2 = none) ∨
      (∃ t1 t2, runStage narrowK wideK w fwd radix m s1 = some t1 ∧
        runStage narrowK wideK w fwd radix m s2 = some t2 ∧ StateRel t1 t2) := by
  intro m
  induction m with
  | zero =>
    intro s1 s2 hrel
    exact Or.inr ⟨s1, s2, rfl, rfl, hrel⟩
  | succ m ih =>
    intro s1 s2 hrel
    have hstride : s1.stride = s2.stride := hrel.2.1
    by_cases hstr : s1.stride < w
    · have hstr2 : s2.stride < w := by rw [← hstride]; exact hstr
      rcases driverStep_rel narrowK fwd radix hrel with ⟨hn1, hn2⟩ | ⟨u1, u2, hu1, hu2, hrel2⟩
      · left
        constructor
        · rw [runStage, if_pos hstr, hn1]
        · rw [runStage, if_pos hstr2, hn2]
      · rcases ih hrel2 with ⟨hn1, hn2⟩ | ⟨t1, t2, ht1, ht2, hrel3⟩
        · left
          constructor
          · rw [runStage, if_pos hstr, hu1]
            exact hn1
          · rw [runStage, if_pos hstr2, hu2]
            exact hn2
        · right
          refine ⟨t1, t2, ?_, ?_, hrel3⟩
          · rw [runStage, if_pos hstr, hu1]
            exact ht1
          · rw [runStage, if_pos hstr2, hu2]
            exact ht2
    · have hstr2 : ¬ s2.stride < w := by rw [← hstride]; exact hstr
      rcases runWide_rel wideK fwd radix (m + 1) hrel with ⟨hn1, hn2⟩ | ⟨t1, t2, ht1, ht2, hrel3⟩
      · left
        constructor
        · rw [runStage, if_neg hstr]
          exact hn1
        · rw [runStage, if_neg hstr2]
          exact hn2
      · right
        refine ⟨t1, t2, ?_, ?_, hrel3⟩
        · rw [runStage, if_neg hstr]
          exact ht1
        · rw [runStage, if_neg hstr2]
          exact ht2

theorem runStages_rel {T : Type} (narrowK wideK : KernelFn T) (w : ℕ) (fwd : Bool) :
    ∀ (stages : List (ℕ × ℕ)) {s1 s2 : DriverState T}, StateRel s1 s2 →
      (runStages narrowK wideK w fwd stages s1 = none ∧
        runStages narrowK wideK w fwd stages s2 = none) ∨
      (∃ t1 t2, runStages narrowK wideK w fwd stages s1 = some t1 ∧
        runStages narrowK wideK w fwd stages s2 = some t2 ∧ StateRel t1 t2) := by
  intro stages
  induction stages with
  | nil =>
    intro s1 s2 hrel
    exact Or.inr ⟨s1, s2, rfl, rfl, hrel⟩
  | cons hd rest ih =>
    intro s1 s2 hrel
    obtain ⟨radix, iterations⟩ := hd
    rcases runStage_rel narrowK wideK w fwd radix iterations hrel with
      ⟨hn1, hn2⟩ | ⟨u1, u2, hu1, hu2, hrel2⟩
    · left
      constructor <;> rw [runStages]
      · rw [hn1]
      · rw [hn2]
    · rcases ih hrel2 with ⟨hn1, hn2⟩ | ⟨t1, t2, ht1, ht2, hrel3⟩
      · left
        constructor <;> rw [runStages]
        · rw [hu1]
          exact hn1
        · rw [hu2]
          exact hn2
      · right
        refine ⟨t1, t2, ?_, ?_, hrel3⟩
        · rw [runStages, hu1]
          exact ht1
        · rw [runStages, hu2]
          exact ht2

theorem apply_stages_fst_indep {T : Type} (env : FftEnv T) (narrowK wideK : KernelFn T)
    (w : ℕ) (input work1 work2 : List T) (st : Stages T) (fwd : Bool)
    (hnk : KernelPreservesLength narrowK) (hwk : KernelPreservesLength wideK)
    (hlen : work1.length = work2.length) :
    (apply_stages narrowK wideK w env input work1 st fwd).map Prod.fst =
      (apply_stages narrowK wideK w env input work2 st fwd).map Prod.fst := by
  by_cases hg : input.length = work1.length ∧ st.size = input.length
  · have hg2 : input.length = work2.length ∧ st.size = input.length :=
      ⟨hg.1.trans hlen, hg.2⟩
    have hrel : StateRel
        (⟨input, work1, st.size, 1,
          if fwd then st.forward_twiddles else st.reverse_twiddles, false⟩ : DriverState T)
        ⟨input, work2, st.size, 1,
          if fwd then st.forward_twiddles else st.reverse_twiddles, false⟩ := by
      refine ⟨rfl, rfl, rfl, rfl, rfl, ?_⟩
      simpa [DriverState.scratchBuf] using hlen
    rw [apply_stages, apply_stages, if_pos hg, if_pos hg2]
    rcases runStages_rel narrowK wideK w fwd st.stages hrel with
      ⟨hn1, hn2⟩ | ⟨t1, t2, ht1, ht2, hrel2⟩
    · rw [hn1, hn2]
    · rw [ht1, ht2]
      obtain ⟨hsz, hst, htw, hfl, hdb, hsc⟩ := hrel2
      obtain ⟨h1i, h1o⟩ := runStages_lengths hnk hwk w fwd st.stages _ t1 ht1 rfl hg.1.symm
      obtain ⟨h2i, h2o⟩ := runStages_lengths hnk hwk w fwd st.stages _ t2 ht2 rfl hg2.1.symm
      by_cases hd : t1.dataInOutput
      · have hd2 : t2.dataInOutput = true := by rw [← hfl]; exact hd
        have hout : t1.output = t2.output := by
          simpa [DriverState.dataBuf, hd, hd2] using hdb
        cases fwd with
        | true =>
          simp only [hd, hd2, if_true]
          rw [if_pos (show t1.input.length = t1.output.length by omega),
            if_pos (show t2.input.length = t2.output.length by omega)]
          simp [hout]
        | false =>
          simp only [hd, hd2, Bool.false_eq_true, if_false, if_true]
          have he1 : t1.input.drop t1.output.length = [] := List.drop_eq_nil_of_le (by omega)
          have he2 : t2.input.drop t2.output.length = [] := List.drop_eq_nil_of_le (by omega)
          rw [zipWith_left_map _ _ _ (by omega), zipWith_left_map _ _ _ (by omega), he1, he2]
          simp [hout]
      · have hd2 : t2.dataInOutput = false := by
          rw [← hfl]
          simpa using hd
        have hin : t1.input = t2.input := by
          simp only [Bool.not_eq_true] at hd
          simpa [DriverState.dataBuf, hd, hd2] using hdb
        simp only [Bool.not_eq_true] at hd
        cases fwd with
        | true =>
          simp only [hd, hd2, Bool.false_eq_true, if_false, if_true]
          simp [hin]
        | false =>
          simp only [hd, hd2, Bool.false_eq_true, if_false]
          simp [hin]
  · have hg2 : ¬ (input.length = work2.length ∧ st.size = input.length) := by
      rintro ⟨ha, hb⟩
      exact hg ⟨ha.trans hlen.symm, hb⟩
    rw [apply_stages, apply_stages, if_neg hg, if_neg hg2]

theorem apply_stages_lengths {T : Type} {env : FftEnv T} {narrowK wideK : KernelFn T}
    {w : ℕ} {input output : List T} {st : Stages T} {fwd : Bool} {r : List T × List T}
    (hnk : KernelPreservesLength narrowK) (hwk : KernelPreservesLength wideK)
    (h : apply_stages narrowK wideK w env input output st fwd = some r) :
    r.1.length = input.length ∧ r.2.length = input.length := by
  by_cases hg : input.length = output.length ∧ st.size = input.length
  · rcases hrun : runStages narrowK wideK w fwd st.stages
        ⟨input, output, st.size, 1,
          if fwd then st.forward_twiddles else st.reverse_twiddles, false⟩ with _ | t
    · rw [apply_stages, if_pos hg, hrun] at h
      cases h
    · rw [apply_stages_final env narrowK wideK w input output st fwd t hnk hwk hg.1 hg.2 hrun]
        at h
      obtain ⟨hti, hto⟩ := runStages_lengths hnk hwk w fwd st.stages _ t hrun rfl hg.1.symm
      simp only at hti hto
      cases h
      constructor
      · by_cases hd : t.dataInOutput <;> cases fwd <;>
          simp [DriverState.dataBuf, hd, hti, hto]
      · exact hto
  · rw [apply_stages, if_neg hg] at h
    cases h

theorem apply_stages_isSome {T : Type} (env : FftEnv T) (narrowK wideK : KernelFn T)
    (w : ℕ) (N : ℕ) (st : Stages T) (h : Stages.new env N = some st)
    (input output : List T) (fwd : Bool)
    (hnk : KernelPreservesLength narrowK) (hwk : KernelPreservesLength wideK)
    (h1 : input.length = output.length) (h2 : st.size = input.length) :
    (apply_stages narrowK wideK w env input output st fwd).isSome := by
  have hmem := stagesNew_radix_mem h
  obtain ⟨hsize, hfw, hrv, hcons⟩ := stagesNew_tables env N st h
  have hcons2 : consumeStages st.stages
      ((⟨input, output, st.size, 1,
        if fwd then st.forward_twiddles else st.reverse_twiddles, false⟩ :
          DriverState T).size,
        (⟨input, output, st.size, 1,
          if fwd then st.forward_twiddles else st.reverse_twiddles, false⟩ :
            DriverState T).twiddles.length) = some (1, 0) := by
    cases fwd <;> simpa [hsize, hfw, hrv] using hcons
  obtain ⟨heq, t, ht, _, _⟩ :=
    runStages_consume narrowK wideK w fwd st.stages _ (1, 0) hmem hcons2
  rw [apply_stages_final env narrowK wideK w input output st fwd t hnk hwk h1 h2 ht]
  rfl

theorem create_some_eq {T : Type} {env : FftEnv T} {N : ℕ} {pf : PrimeFactor T}
    (h : create env N = some pf) :
    Stages.new env N = some pf.stages ∧ pf.work = List.replicate N env.defaultVal ∧
      pf.size = N := by
  rw [create, PrimeFactor.new] at h
  rcases hstg : Stages.new env N with _ | stg
  · rw [hstg] at h
    cases h
  · rw [hstg] at h
    cases h
    exact ⟨rfl, rfl, rfl⟩

/-- C10: for every engine produced by `create` and any length-preserving
kernels, `transform_in_place` succeeds, leaves its result in the caller
buffer (of unchanged length N), returns the engine with its plan and size
untouched and a scratch buffer that again has length N, and a second call
on the returned engine with the same input produces the same output — the
transform result does not depend on what the reusable scratch buffer
contained, so successive calls behave identically to the first. -/
theorem claim_C10 {T : Type} (env : FftEnv T) (narrowK wideK : KernelFn T) (w : ℕ)
    (N : ℕ) (pf : PrimeFactor T) (input : List T) (forward : Bool)
    (hnk : KernelPreservesLength narrowK) (hwk : KernelPreservesLength wideK)
    (hpf : create env N = some pf) (hin : input.length = N) :
    ∃ out pf2 pf3,
      PrimeFactor.transform_in_place narrowK wideK w env pf input forward =
        some (out, pf2) ∧
      out.length = N ∧ pf2.stages = pf.stages ∧ pf2.size = pf.size ∧ pf2.work.length = N ∧
      PrimeFactor.transform_in_place narrowK wideK w env pf2 input forward =
        some (out, pf3) ∧
      pf3.work.length = N ∧ pf3.stages = pf.stages ∧ pf3.size = pf.size := by
  obtain ⟨hstg, hwork, hsizepf⟩ := create_some_eq hpf
  have hstsize : pf.stages.size = N := by
    have := (stagesNew_tables env N pf.stages hstg).1
    exact this
  have hwlen : pf.work.length = N := by
    rw [hwork]
    exact List.length_replicate _ _
  have h1 : input.length = pf.work.length := by rw [hin, hwlen]
  have h2 : pf.stages.size = input.length := by rw [hstsize, hin]
  obtain ⟨r1, hr1⟩ := Option.isSome_iff_exists.mp
    (apply_stages_isSome env narrowK wideK w N pf.stages hstg input pf.work forward
      hnk hwk h1 h2)
  obtain ⟨out, work2⟩ := r1
  obtain ⟨houtlen, hw2len⟩ := apply_stages_lengths hnk hwk hr1
  have htr1 : PrimeFactor.transform_in_place narrowK wideK w env pf input forward =
      some (out, { pf with work := work2 }) := by
    rw [PrimeFactor.transform_in_place, hr1]
  have h1b : input.length = work2.length := hw2len.symm
  obtain ⟨r2, hr2⟩ := Option.isSome_iff_exists.mp
    (apply_stages_isSome env narrowK wideK w N pf.stages hstg input work2 forward
      hnk hwk h1b h2)
  obtain ⟨out2, work3⟩ := r2
  have hindep := apply_stages_fst_indep env narrowK wideK w input work2 pf.work pf.stages
    forward hnk hwk (by rw [← h1b, ← h1])
  rw [hr1, hr2] at hindep
  have hout2 : out2 = out := by
    simpa using hindep
  obtain ⟨hout2len, hw3len⟩ := apply_stages_lengths hnk hwk hr2
  have htr2 : PrimeFactor.transform_in_place narrowK wideK w env
      { pf with work := work2 } input forward =
      some (out, { pf with work := work3 }) := by
    rw [PrimeFactor.transform_in_place]
    show (match apply_stages narrowK wideK w env input work2 pf.stages forward with
      | some (input2, work4) => some (input2, { pf with work := work4 })
      | none => none) = _
    rw [hr2, hout2]
  refine ⟨out, { pf with work := work2 }, { pf with work := work3 }, htr1,
    by rw [houtlen, hin], rfl, rfl, by rw [← hin]; exact hw2len, htr2,
    by rw [← hin]; exact hw3len, rfl, rfl⟩

theorem claim_C10_witness :
    ∃ out pf2 pf3,
      PrimeFactor.transform_in_place idKernel idKernel 0 envNat
          ⟨st4, [0, 0, 0, 0], 4⟩ [1, 2, 3, 4] true = some (out, pf2) ∧
      out.length = 4 ∧ pf2.stages = (⟨st4, [0, 0, 0, 0], 4⟩ : PrimeFactor ℕ).stages ∧
      pf2.size = (⟨st4, [0, 0, 0, 0], 4⟩ : PrimeFactor ℕ).size ∧ pf2.work.length = 4 ∧
      PrimeFactor.transform_in_place idKernel idKernel 0 envNat pf2 [1, 2, 3, 4] true =
        some (out, pf3) ∧
      pf3.work.length = 4 ∧ pf3.stages = (⟨st4, [0, 0, 0, 0], 4⟩ : PrimeFactor ℕ).stages ∧
      pf3.size = (⟨st4, [0, 0, 0, 0], 4⟩ : PrimeFactor ℕ).size :=
  claim_C10 envNat idKernel idKernel 0 4 ⟨st4, [0, 0, 0, 0], 4⟩ [1, 2, 3, 4] true
    (fun _ _ _ _ _ _ => rfl) (fun _ _ _ _ _ _ => rfl) rfl rfl

/-! ## Structure of the twiddle tables over the exact-complex environment -/

theorem compute_twiddle_conj (k m : ℕ) :
    compute_twiddle k m false = (starRingEnd ℂ) (compute_twiddle k m true) := by
  rw [compute_twiddle, compute_twiddle, ← Complex.exp_conj]
  congr 1
  simp only [Bool.false_eq_true, if_false, if_true, map_div₀, map_mul, map_neg, map_one,
    map_ofNat, Complex.conj_I, Complex.conj_ofReal, map_natCast]
  ring

theorem compute_twiddle_zero (m : ℕ) (forward : Bool) :
    compute_twiddle 0 m forward = 1 := by
  rw [compute_twiddle]
  simp

theorem twiddleGroupsFrom_conj (s r : ℕ) :
    ∀ m i0, twiddleGroupsFrom envC s r false i0 m =
      (twiddleGroupsFrom envC s r true i0 m).map (starRingEnd ℂ) := by
  intro m
  induction m with
  | zero => intro i0; rfl
  | succ n ih =>
    intro i0
    simp only [twiddleGroupsFrom, List.map_append, List.map_cons, List.map_map, ih]
    congr 2
    · show (1 : ℂ) = (starRingEnd ℂ) 1
      rw [map_one]
    · apply List.map_congr_left
      intro a _
      show envC.twiddle (i0 * a) s false = _
      show compute_twiddle (i0 * a) s false = (starRingEnd ℂ) (compute_twiddle (i0 * a) s true)
      exact compute_twiddle_conj _ _

theorem extend_twiddles_reverse_conj (r : ℕ) :
    ∀ n s, (extend_twiddles envC s r n).2 = (extend_twiddles envC s r n).1.map (starRingEnd ℂ) := by
  intro n
  induction n with
  | zero => intro s; rfl
  | succ m ih =>
    intro s
    simp only [extend_twiddles, List.map_append, ih (s / r), twiddleGroupsFrom_conj]

theorem twiddleGroupsFrom_getElem {T : Type} (env : FftEnv T) (subsize radix : ℕ)
    (fwd : Bool) (hr : 1 ≤ radix) :
    ∀ m i0 i j, i < m → j < radix →
      (twiddleGroupsFrom env subsize radix fwd i0 m)[i * radix + j]? =
        some (if j = 0 then env.one else env.twiddle ((i0 + i) * j) subsize fwd) := by
  intro m
  induction m with
  | zero => intro i0 i j hi _; omega
  | succ n ih =>
    intro i0 i j hi hj
    have hlenGroup : (env.one ::
        (List.range' 1 (radix - 1)).map fun jx => env.twiddle (i0 * jx) subsize fwd).length =
        radix := by
      simp only [List.length_cons, List.length_map, List.length_range']
      omega
    rcases Nat.eq_zero_or_pos i with rfl | hipos
    · rw [twiddleGroupsFrom, List.getElem?_append_left (by rw [hlenGroup]; omega)]
      rcases Nat.eq_zero_or_pos j with rfl | hjpos
      · simp
      · obtain ⟨jj, rfl⟩ : ∃ jj, j = jj + 1 := ⟨j - 1, by omega⟩
        rw [show 0 * radix + (jj + 1) = jj + 1 by ring, List.getElem?_cons_succ,
          List.getElem?_map]
        rw [show (List.range' 1 (radix - 1))[jj]? = some (1 + jj) by
          simp [List.getElem?_range', show jj < radix - 1 by omega]]
        rw [show ((some (1 + jj)).map fun jx => env.twiddle (i0 * jx) subsize fwd) =
          some (env.twiddle (i0 * (1 + jj)) subsize fwd) from rfl]
        rw [if_neg (by omega)]
        congr 3
        omega
    · obtain ⟨ii, rfl⟩ : ∃ ii, i = ii + 1 := ⟨i - 1, by omega⟩
      rw [twiddleGroupsFrom, List.getElem?_append_right (by rw [hlenGroup]; nlinarith)]
      rw [hlenGroup]
      have hidx : (ii + 1) * radix + j - radix = ii * radix + j := by
        have h1 : (ii + 1) * radix = ii * radix + radix := by ring
        omega
      rw [hidx, ih (i0 + 1) ii j (by omega) hj]
      have h2 : i0 + 1 + ii = i0 + (ii + 1) := by omega
      rw [h2]

theorem extend_twiddles_getElem {T : Type} (env : FftEnv T) {radix : ℕ} (hr : 1 ≤ radix) :
    ∀ n s t i j, t < n → i < s / radix ^ t / radix → j < radix →
      ((extend_twiddles env s radix n).1[twLen s radix t + (i * radix + j)]? =
        some (if j = 0 then env.one else env.twiddle (i * j) (s / radix ^ t) true)) ∧
      ((extend_twiddles env s radix n).2[twLen s radix t + (i * radix + j)]? =
        some (if j = 0 then env.one else env.twiddle (i * j) (s / radix ^ t) false)) := by
  intro n
  induction n with
  | zero => intro s t i j ht _ _; omega
  | succ m ih =>
    intro s t i j ht hi hj
    have hgl : ∀ (fwd : Bool),
        (twiddleGroupsFrom env s radix fwd 0 (s / radix)).length = s / radix * radix :=
      fun fwd => twiddleGroupsFrom_length env s radix fwd hr (s / radix) 0
    have hfs : (extend_twiddles env s radix (m + 1)).1 =
        twiddleGroupsFrom env s radix true 0 (s / radix)
          ++ (extend_twiddles env (s / radix) radix m).1 := rfl
    have hrs : (extend_twiddles env s radix (m + 1)).2 =
        twiddleGroupsFrom env s radix false 0 (s / radix)
          ++ (extend_twiddles env (s / radix) radix m).2 := rfl
    rcases Nat.eq_zero_or_pos t with rfl | htpos
    · have hi0 : i < s / radix := by
        rw [pow_zero, Nat.div_one] at hi
        exact hi
      have hidxlt : i * radix + j < s / radix * radix := by nlinarith
      have hzero : twLen s radix 0 + (i * radix + j) = i * radix + j := by
        simp [twLen]
      constructor
      · rw [hzero, hfs, List.getElem?_append_left (by rw [hgl true]; exact hidxlt),
          twiddleGroupsFrom_getElem env s radix true hr (s / radix) 0 i j hi0 hj]
        rw [pow_zero, Nat.div_one, Nat.zero_add]
      · rw [hzero, hrs, List.getElem?_append_left (by rw [hgl false]; exact hidxlt),
          twiddleGroupsFrom_getElem env s radix false hr (s / radix) 0 i j hi0 hj]
        rw [pow_zero, Nat.div_one, Nat.zero_add]
    · obtain ⟨u, rfl⟩ : ∃ u, t = u + 1 := ⟨t - 1, by omega⟩
      have hsub : s / radix / radix ^ u = s / radix ^ (u + 1) := by
        rw [Nat.div_div_eq_div_mul, ← pow_succ']
      have hoff : twLen s radix (u + 1) + (i * radix + j) =
          s / radix * radix + (twLen (s / radix) radix u + (i * radix + j)) := by
        simp only [twLen]
        omega
      have hdrop : s / radix * radix + (twLen (s / radix) radix u + (i * radix + j))
          - s / radix * radix = twLen (s / radix) radix u + (i * radix + j) := by
        omega
      have hiu : i < s / radix / radix ^ u / radix := by
        rw [hsub]
        exact hi
      constructor
      · rw [hoff, hfs, List.getElem?_append_right (by rw [hgl true]; omega), hgl true, hdrop,
          (ih (s / radix) u i j (by omega) hiu hj).1, hsub]
      · rw [hoff, hrs, List.getElem?_append_right (by rw [hgl false]; omega), hgl false, hdrop,
          (ih (s / radix) u i j (by omega) hiu hj).2, hsub]

/-- C4: over the exact-complex environment, for every iteration `t` of an
`extend_twiddles` call (current sub-size `s / r^t`, divided by `r` after
each iteration), the appended segment consists of `(s / r^t) / r` groups
of `r` entries: the entry at offset `twLen s r t + (i*r + j)` is the
multiplicative identity for `j = 0` and `root_of_unity(i*j, s / r^t)` with
the direction sign for `j = 1..r-1`; the whole reverse table is the
complex conjugate of the forward table, the root of unity satisfies the
conjugation and identity laws, and each table has exactly `twLen` entries
(its `s/r` groups of `r` per iteration). -/
theorem claim_C4 (s r n t i j : ℕ) (hr : 2 ≤ r) (ht : t < n)
    (hi : i < s / r ^ t / r) (hj : j < r) :
    ((extend_twiddles envC s r n).1[twLen s r t + (i * r + j)]? =
      some (if j = 0 then 1 else compute_twiddle (i * j) (s / r ^ t) true)) ∧
    ((extend_twiddles envC s r n).2[twLen s r t + (i * r + j)]? =
      some (if j = 0 then 1 else compute_twiddle (i * j) (s / r ^ t) false)) ∧
    (extend_twiddles envC s r n).2 = (extend_twiddles envC s r n).1.map (starRingEnd ℂ) ∧
    (extend_twiddles envC s r n).1.length = twLen s r n ∧
    (extend_twiddles envC s r n).2.length = twLen s r n ∧
    compute_twiddle (i * j) (s / r ^ t) false =
      (starRingEnd ℂ) (compute_twiddle (i * j) (s / r ^ t) true) ∧
    compute_twiddle 0 (s / r ^ t) true = 1 := by
  obtain ⟨hf, hrv⟩ := extend_twiddles_getElem envC (by omega) n s t i j ht hi hj
  exact ⟨hf, hrv, extend_twiddles_reverse_conj r n s,
    (extend_twiddles_length envC (by omega) n s).1,
    (extend_twiddles_length envC (by omega) n s).2,
    compute_twiddle_conj _ _, compute_twiddle_zero _ _⟩

theorem claim_C4_witness :
    ((extend_twiddles envC 8 2 3).1[twLen 8 2 1 + (1 * 2 + 1)]? =
      some (if 1 = 0 then 1 else compute_twiddle (1 * 1) (8 / 2 ^ 1) true)) ∧
    ((extend_twiddles envC 8 2 3).2[twLen 8 2 1 + (1 * 2 + 1)]? =
      some (if 1 = 0 then 1 else compute_twiddle (1 * 1) (8 / 2 ^ 1) false)) ∧
    (extend_twiddles envC 8 2 3).2 = (extend_twiddles envC 8 2 3).1.map (starRingEnd ℂ) ∧
    (extend_twiddles envC 8 2 3).1.length = twLen 8 2 3 ∧
    (extend_twiddles envC 8 2 3).2.length = twLen 8 2 3 ∧
    compute_twiddle (1 * 1) (8 / 2 ^ 1) false =
      (starRingEnd ℂ) (compute_twiddle (1 * 1) (8 / 2 ^ 1) true) ∧
    compute_twiddle 0 (8 / 2 ^ 1) true = 1 :=
  claim_C4 8 2 3 1 1 1 (by decide) (by decide) (by decide) (by decide)

/-! ## Round trip of the spec-modelled transform -/

theorem compute_twiddle_true_eq (N a : ℕ) :
    compute_twiddle a N true =
      Complex.exp (2 * (Real.pi : ℂ) * Complex.I / N) ^ (-(a : ℤ)) := by
  rw [compute_twiddle, if_pos rfl, ← Complex.exp_int_mul]
  congr 1
  push_cast
  ring

theorem compute_twiddle_false_eq (N a : ℕ) :
    compute_twiddle a N false =
      Complex.exp (2 * (Real.pi : ℂ) * Complex.I / N) ^ ((a : ℤ)) := by
  rw [compute_twiddle, if_neg Bool.false_ne_true, ← Complex.exp_int_mul]
  congr 1
  push_cast
  ring

theorem zeta_geom_sum (N : ℕ) (hN : 0 < N) (d : ℤ) (hd : ¬ (N : ℤ) ∣ d) :
    ∑ k ∈ Finset.range N, (Complex.exp (2 * (Real.pi : ℂ) * Complex.I / N) ^ d) ^ k = 0 := by
  have hprim := Complex.isPrimitiveRoot_exp N hN.ne'
  have hu1 : Complex.exp (2 * (Real.pi : ℂ) * Complex.I / N) ^ d ≠ 1 := fun h =>
    hd ((hprim.zpow_eq_one_iff_dvd d).mp h)
  have huN : (Complex.exp (2 * (Real.pi : ℂ) * Complex.I / N) ^ d) ^ N = 1 := by
    rw [← zpow_natCast (Complex.exp (2 * (Real.pi : ℂ) * Complex.I / N) ^ d) N, ← zpow_mul,
      mul_comm d (N : ℤ), zpow_mul, zpow_natCast, hprim.pow_eq_one, one_zpow]
  rw [geom_sum_eq hu1, huN]
  simp

/-- C2: for every supported length N (any positive N in the exact model),
a forward transform followed by an inverse transform reproduces the input
exactly — over exact complex arithmetic the round-trip error is zero,
hence within any floating tolerance scaled by N and the precision
epsilon. -/
theorem claim_C2 (N : ℕ) (hN : 0 < N) (x : Fin N → ℂ) :
    specTransform N (specTransform N x true) false = x := by
  have hNne : (N : ℂ) ≠ 0 := Nat.cast_ne_zero.mpr hN.ne'
  funext l
  have hy : specTransform N x true = dft N true x := by
    rw [specTransform, if_pos rfl]
  have houter : specTransform N (dft N true x) false l =
      dft N false (dft N true x) l / N := by
    rw [specTransform, if_neg Bool.false_ne_true]
  rw [hy, houter]
  set ζ := Complex.exp (2 * (Real.pi : ℂ) * Complex.I / N) with hζ
  have hζne : ζ ≠ 0 := by
    rw [hζ]
    exact Complex.exp_ne_zero _
  have expand : dft N false (dft N true x) l =
      ∑ j : Fin N, x j * ∑ k : Fin N,
        compute_twiddle (j.1 * k.1) N true * compute_twiddle (k.1 * l.1) N false := by
    rw [dft]
    calc ∑ k : Fin N, dft N true x k * compute_twiddle (k.1 * l.1) N false
        = ∑ k : Fin N, ∑ j : Fin N,
            x j * compute_twiddle (j.1 * k.1) N true * compute_twiddle (k.1 * l.1) N false := by
          refine Finset.sum_congr rfl fun k _ => ?_
          rw [dft, Finset.sum_mul]
      _ = ∑ j : Fin N, ∑ k : Fin N,
            x j * compute_twiddle (j.1 * k.1) N true * compute_twiddle (k.1 * l.1) N false :=
          Finset.sum_comm
      _ = ∑ j : Fin N, x j * ∑ k : Fin N,
            compute_twiddle (j.1 * k.1) N true * compute_twiddle (k.1 * l.1) N false := by
          refine Finset.sum_congr rfl fun j _ => ?_
          rw [Finset.mul_sum]
          refine Finset.sum_congr rfl fun k _ => ?_
          ring
  have inner : ∀ j : Fin N,
      (∑ k : Fin N, compute_twiddle (j.1 * k.1) N true * compute_twiddle (k.1 * l.1) N false) =
        if j = l then (N : ℂ) else 0 := by
    intro j
    have hterm : ∀ k : Fin N,
        compute_twiddle (j.1 * k.1) N true * compute_twiddle (k.1 * l.1) N false =
          (ζ ^ ((l.1 : ℤ) - (j.1 : ℤ))) ^ (k.1 : ℕ) := by
      intro k
      rw [compute_twiddle_true_eq, compute_twiddle_false_eq, ← hζ,
        ← zpow_natCast (ζ ^ ((l.1 : ℤ) - (j.1 : ℤ))) k.1, ← zpow_mul,
        ← zpow_add₀ hζne]
      congr 1
      push_cast
      ring
    rw [Finset.sum_congr rfl fun k _ => hterm k,
      Fin.sum_univ_eq_sum_range (fun m => (ζ ^ ((l.1 : ℤ) - (j.1 : ℤ))) ^ m) N]
    by_cases hjl : j = l
    · subst hjl
      simp [Finset.sum_const, Finset.card_range]
    · rw [if_neg hjl, hζ]
      apply zeta_geom_sum N hN
      intro hdvd
      have hd0 : (l.1 : ℤ) - (j.1 : ℤ) ≠ 0 := by
        intro h0
        exact hjl (Fin.ext (by exact_mod_cast (sub_eq_zero.mp h0).symm))
      have habs := Int.le_of_dvd (abs_pos.mpr hd0) ((dvd_abs _ _).mpr hdvd)
      have h1 : (l.1 : ℤ) < N := by exact_mod_cast l.2
      have h2 : (j.1 : ℤ) < N := by exact_mod_cast j.2
      have h3 : (0 : ℤ) ≤ (l.1 : ℤ) := by positivity
      have h4 : (0 : ℤ) ≤ (j.1 : ℤ) := by positivity
      rcases abs_cases ((l.1 : ℤ) - (j.1 : ℤ)) with ⟨he, _⟩ | ⟨he, _⟩ <;> omega
  rw [expand, Finset.sum_congr rfl fun j _ => by rw [inner j]]
  have hsum : (∑ j : Fin N, x j * (if j = l then (N : ℂ) else 0)) = x l * N := by
    rw [Finset.sum_congr rfl fun j _ => by rw [mul_ite, mul_zero]]
    rw [Finset.sum_ite_eq' Finset.univ l fun j => x j * (N : ℂ)]
    simp
  rw [hsum, mul_div_cancel_right₀ _ hNne]

theorem claim_C2_witness :
    specTransform 1 (specTransform 1 (fun _ => (3 : ℂ)) true) false = fun _ => (3 : ℂ) :=
  claim_C2 1 (by decide) fun _ => 3
